import Mathlib

/-!
A shallow embedding of the stream-collator collation engine
(`libraries/stream-collator`): the registry of per-task writers, the
buffering rules, and the close-time flush cascade.  The engine's own
implementation files are not part of the source snapshot (only its test
suite is), so the operational definitions below are modelled from the
specification's algorithm and validated against the test suite's
scenarios, which are reproduced as theorems further down.
-/

namespace StreamCollator

/-- Modelled from the spec: chunk kinds — `Stdout` is the primary kind and
`Stderr` the secondary kind, as used by the test suite
(`TerminalChunkKind.Stdout` / `TerminalChunkKind.Stderr`). -/
inductive TerminalChunkKind
| Stdout
| Stderr
deriving DecidableEq

/-- Modelled from the spec: an immutable unit of output
`{ text : string, kind }`, opaque to the engine. -/
structure ITerminalChunk where
  text : String
  kind : TerminalChunkKind
deriving DecidableEq

/-- Modelled from the spec: the per-task lifecycle state. -/
inductive TaskState
| Open
| Closed
| Done
deriving DecidableEq

/-- A sink emission as observed at the Output Sink Adapter.  The adapter
itself only receives `chunk`; the `origin`/`originIndex` components are
observational bookkeeping recording which task the engine was forwarding
for, so that ordering properties can be stated per task.  The engine
never reads the sink, so this enrichment cannot influence behaviour. -/
structure SinkEvent where
  origin : String
  originIndex : Nat
  chunk : ITerminalChunk
deriving DecidableEq

/-- Modelled from the spec: one registry entry per registered task, with
`name`, `registrationIndex`, `buffer` and `state` as specified.  The
extra `written` field is observational history (the chunks this task has
successfully written, in order); it is appended to on each successful
write and never read by the engine, so it cannot influence behaviour. -/
structure TaskEntry where
  name : String
  registrationIndex : Nat
  buffer : List ITerminalChunk
  state : TaskState
  written : List ITerminalChunk
deriving DecidableEq

/-- Modelled from the spec: the collation engine's state — the registry
(kept in registration order, so list order coincides with
`registrationIndex` order), the next index to assign, and the trace of
sink emissions. -/
structure CollatorState where
  tasks : List TaskEntry
  nextIndex : Nat
  sink : List SinkEvent
deriving DecidableEq

def initialState : CollatorState := ⟨[], 0, []⟩

/-- Modelled from the spec: the three usage-error kinds of §7. -/
inductive CollatorError
| DuplicateTaskError
| ClosedWriterError
| AlreadyClosedError
deriving DecidableEq

/-- Modelled from the spec: the per-task writer handle; it exposes the
task's name (`writer.taskName` in the test suite) and otherwise
delegates to the engine, so the name is all the state it carries. -/
structure CollatedWriter where
  taskName : String
deriving DecidableEq

def findTask? (s : CollatorState) (n : String) : Option TaskEntry :=
  s.tasks.find? (fun t => t.name = n)

/-- The front task: the entry with the smallest `registrationIndex`
among non-`Done` entries.  Since `tasks` is kept in registration order,
this is the first non-`Done` entry (the lemma `front?_min` below proves
the minimality characterisation). -/
def front? (s : CollatorState) : Option TaskEntry :=
  s.tasks.find? (fun t => t.state ≠ TaskState.Done)

def isFront (s : CollatorState) (n : String) : Bool :=
  match front? s with
  | some t => t.name = n
  | none => false

def updateTask (ts : List TaskEntry) (n : String) (f : TaskEntry → TaskEntry) :
    List TaskEntry :=
  ts.map (fun t => if t.name = n then f t else t)

/-- Modelled from the spec: `registerTask(name)` fails with
`DuplicateTaskError` when the name is already taken (names are kept
permanently unique for the run, so the check is against all entries,
which subsumes the non-`Done` collision case); otherwise it appends a
fresh `Open` entry with the next `registrationIndex` and returns the
writer handle. -/
def registerTask (s : CollatorState) (name : String) :
    Except CollatorError (CollatorState × CollatedWriter) :=
  if s.tasks.any (fun t => t.name = name) then
    .error .DuplicateTaskError
  else
    .ok ({ tasks := s.tasks ++ [⟨name, s.nextIndex, [], .Open, []⟩],
           nextIndex := s.nextIndex + 1,
           sink := s.sink }, ⟨name⟩)

/-- Modelled from the spec: `write(handle, chunk)` fails with
`ClosedWriterError` unless the task is `Open`; a front task's chunk is
forwarded to the sink immediately, a non-front task's chunk is appended
to that task's buffer.  (The `none` branch is unreachable through the
API: handles exist only for registered tasks, and entries are never
removed.)  The `written` history field records the successful write. -/
def writeChunk (s : CollatorState) (n : String) (c : ITerminalChunk) :
    Except CollatorError CollatorState :=
  match findTask? s n with
  | none => .error .ClosedWriterError
  | some t =>
    match t.state with
    | .Open =>
      if isFront s n then
        .ok { s with
              sink := s.sink ++ [⟨n, t.registrationIndex, c⟩],
              tasks := updateTask s.tasks n
                (fun u => { u with written := u.written ++ [c] }) }
      else
        .ok { s with
              tasks := updateTask s.tasks n
                (fun u => { u with buffer := u.buffer ++ [c],
                                   written := u.written ++ [c] }) }
    | _ => .error .ClosedWriterError

/-- Modelled from the spec: the close-time cascade — while the front
task (first non-`Done` entry) is `Closed`, forward its entire buffer to
the sink in write order, clear the buffer, mark it `Done`, and advance;
stop as soon as the front is `Open` or no non-`Done` entry remains.
Returns the new registry together with the emitted events in order. -/
def cascade : List TaskEntry → List TaskEntry × List SinkEvent
  | [] => ([], [])
  | t :: rest =>
    match t.state with
    | .Done =>
      let p := cascade rest
      (t :: p.1, p.2)
    | .Closed =>
      let p := cascade rest
      ({ t with buffer := [], state := .Done } :: p.1,
       t.buffer.map (fun c => ⟨t.name, t.registrationIndex, c⟩) ++ p.2)
    | .Open => (t :: rest, [])

/-- Marking the closed task: the state transition `Open → Closed`
performed by `close` before the cascade runs. -/
def markClosed (ts : List TaskEntry) (n : String) : List TaskEntry :=
  updateTask ts n (fun u => { u with state := .Closed })

/-- Modelled from the spec: `close(handle)` fails with
`AlreadyClosedError` unless the task is `Open`; otherwise it marks the
task `Closed` and runs the cascade. -/
def closeWriter (s : CollatorState) (n : String) :
    Except CollatorError CollatorState :=
  match findTask? s n with
  | none => .error .AlreadyClosedError
  | some t =>
    match t.state with
    | .Open =>
      let p := cascade (markClosed s.tasks n)
      .ok { s with tasks := p.1, sink := s.sink ++ p.2 }
    | _ => .error .AlreadyClosedError

/-- Decidable equality for `Except` results, so that concrete runs can
be checked by `decide`. -/
instance {e a : Type} [DecidableEq e] [DecidableEq a] :
    DecidableEq (Except e a) := fun x y =>
  match x, y with
  | .ok v, .ok w =>
    if h : v = w then .isTrue (by rw [h])
    else .isFalse (fun hc => by cases hc; exact h rfl)
  | .error v, .error w =>
    if h : v = w then .isTrue (by rw [h])
    else .isFalse (fun hc => by cases hc; exact h rfl)
  | .ok _, .error _ => .isFalse (fun hc => by cases hc)
  | .error _, .ok _ => .isFalse (fun hc => by cases hc)

/-- An operation against the engine, identifying the task by its
handle's name. -/
inductive Op
| register (name : String)
| write (name : String) (chunk : ITerminalChunk)
| close (name : String)
deriving DecidableEq

/-- One engine operation; a failed call raises synchronously and leaves
the engine state unchanged. -/
def step (s : CollatorState) : Op → CollatorState
  | .register n =>
    match registerTask s n with
    | .ok p => p.1
    | .error _ => s
  | .write n c =>
    match writeChunk s n c with
    | .ok s' => s'
    | .error _ => s
  | .close n =>
    match closeWriter s n with
    | .ok s' => s'
    | .error _ => s

/-- The state reached by running a sequence of operations from the
initial (empty) engine state. -/
def run (ops : List Op) : CollatorState := ops.foldl step initialState

/-- The chunks delivered to the Output Sink Adapter, in emission
order. -/
def sinkChunks (s : CollatorState) : List ITerminalChunk :=
  s.sink.map SinkEvent.chunk

/-- The subsequence of sink emissions originating from task `n`. -/
def emissionsOf (s : CollatorState) (n : String) : List ITerminalChunk :=
  (s.sink.filter (fun e => e.origin = n)).map SinkEvent.chunk

/-- Modelled from the spec: `peekBuffer()` — the task's current
unflushed buffer content (empty for an unknown name). -/
def peekBuffer (s : CollatorState) (n : String) : List ITerminalChunk :=
  match findTask? s n with
  | some t => t.buffer
  | none => []

/-- The state of task `n`, if registered. -/
def stateOf (s : CollatorState) (n : String) : Option TaskState :=
  (findTask? s n).map TaskEntry.state

/-- The chunks successfully written by task `n`, in write order. -/
def writtenOf (s : CollatorState) (n : String) : List ITerminalChunk :=
  match findTask? s n with
  | some t => t.written
  | none => []

/-- All chunks currently buffered, concatenated in registration
order. -/
def allBuffered (s : CollatorState) : List ITerminalChunk :=
  (s.tasks.map TaskEntry.buffer).flatten

/-- All chunks successfully written by all tasks, concatenated in
registration order. -/
def allWritten (s : CollatorState) : List ITerminalChunk :=
  (s.tasks.map TaskEntry.written).flatten

/-- Whether every registered task has reached the terminal `Done`
state. -/
def allDone (s : CollatorState) : Bool :=
  s.tasks.all (fun t => t.state = TaskState.Done)

/-! ### Auxiliary descriptions of the cascade -/

/-- Whether an entry keeps the cascade going (it is `Closed` or
`Done`, i.e. not `Open`). -/
def notOpenB (t : TaskEntry) : Bool :=
  match t.state with
  | .Open => false
  | _ => true

/-- Whether an entry is `Closed`. -/
def isClosedB (t : TaskEntry) : Bool :=
  match t.state with
  | .Closed => true
  | _ => false

/-- What the cascade does to an entry it traverses: a `Closed` entry is
flushed (buffer cleared, state `Done`), others are untouched. -/
def finishEntry (t : TaskEntry) : TaskEntry :=
  match t.state with
  | .Closed => { t with buffer := [], state := .Done }
  | _ => t

/-- The batch of sink events produced by flushing one entry's buffer. -/
def batchOf (t : TaskEntry) : List SinkEvent :=
  t.buffer.map (fun c => ⟨t.name, t.registrationIndex, c⟩)

lemma cascade_eq (ts : List TaskEntry) :
    cascade ts =
      ((ts.takeWhile notOpenB).map finishEntry ++ ts.dropWhile notOpenB,
       (((ts.takeWhile notOpenB).filter isClosedB).map batchOf).flatten) := by
  induction ts with
  | nil => rfl
  | cons t rest ih =>
    cases hst : t.state <;>
      simp [cascade, hst, ih, List.takeWhile_cons, List.dropWhile_cons,
        notOpenB, isClosedB, finishEntry, batchOf]

/-! ### Generic list helpers -/

lemma find?_split {α : Type} {p : α → Bool} {l : List α} {a : α}
    (h : l.find? p = some a) :
    ∃ l₁ l₂, l = l₁ ++ a :: l₂ ∧ (∀ x ∈ l₁, p x = false) ∧ p a = true := by
  induction l with
  | nil => simp at h
  | cons x xs ih =>
    by_cases hx : p x = true
    · rw [List.find?_cons_of_pos _ hx] at h
      obtain rfl : x = a := by simpa using h
      exact ⟨[], xs, by simp, by simp, hx⟩
    · rw [List.find?_cons_of_neg _ (by simpa using hx)] at h
      obtain ⟨l₁, l₂, hl, h₁, h₂⟩ := ih h
      exact ⟨x :: l₁, l₂, by simp [hl], by
        intro y hy
        rcases List.mem_cons.1 hy with rfl | hy
        · simpa using hx
        · exact h₁ y hy, h₂⟩

lemma find?_map_pred {α : Type} {g : α → α} {p : α → Bool}
    (hpg : ∀ x, p (g x) = p x) (l : List α) :
    (l.map g).find? p = (l.find? p).map g := by
  induction l with
  | nil => rfl
  | cons x xs ih =>
    by_cases hx : p x = true
    · simp [List.find?_cons_of_pos, hx, hpg]
    · rw [List.map_cons, List.find?_cons_of_neg _ (by simp [hpg, hx]),
        List.find?_cons_of_neg _ (by simpa using hx), ih]

lemma map_congr_fn {α β : Type} {f g : α → β} (l : List α)
    (h : ∀ x ∈ l, f x = g x) : l.map f = l.map g :=
  List.map_congr_left h

/-! ### Characterisations of the three operations -/

lemma registerTask_error_of_mem {s : CollatorState} {n : String} {t : TaskEntry}
    (ht : t ∈ s.tasks) (hn : t.name = n) :
    registerTask s n = .error .DuplicateTaskError := by
  have hany : s.tasks.any (fun t => t.name = n) = true :=
    List.any_eq_true.2 ⟨t, ht, by simp [hn]⟩
  unfold registerTask
  rw [hany]
  rfl

lemma registerTask_ok_of_fresh {s : CollatorState} {n : String}
    (h : ∀ t ∈ s.tasks, t.name ≠ n) :
    registerTask s n =
      .ok ({ tasks := s.tasks ++ [⟨n, s.nextIndex, [], .Open, []⟩],
             nextIndex := s.nextIndex + 1, sink := s.sink }, ⟨n⟩) := by
  have hany : s.tasks.any (fun t => t.name = n) = false := by
    rw [Bool.eq_false_iff]
    intro hc
    obtain ⟨t, ht, hn⟩ := List.any_eq_true.1 hc
    exact h t ht (by simpa using hn)
  unfold registerTask
  rw [hany]
  rfl

lemma registerTask_ok_elim {s : CollatorState} {n : String}
    {r : CollatorState} {w : CollatedWriter}
    (h : registerTask s n = .ok (r, w)) :
    (∀ t ∈ s.tasks, t.name ≠ n) ∧
    r = { tasks := s.tasks ++ [⟨n, s.nextIndex, [], .Open, []⟩],
          nextIndex := s.nextIndex + 1, sink := s.sink } ∧
    w = ⟨n⟩ := by
  have hfresh : ∀ t ∈ s.tasks, t.name ≠ n := by
    intro t ht hn
    rw [registerTask_error_of_mem ht hn] at h
    cases h
  rw [registerTask_ok_of_fresh hfresh] at h
  cases h
  exact ⟨hfresh, rfl, rfl⟩

lemma writeChunk_error_of_state {s : CollatorState} {n : String}
    {t : TaskEntry} {c : ITerminalChunk}
    (hf : findTask? s n = some t) (hst : t.state ≠ .Open) :
    writeChunk s n c = .error .ClosedWriterError := by
  unfold writeChunk
  cases h : t.state with
  | Open => exact absurd h hst
  | Closed => simp only [hf, h]
  | Done => simp only [hf, h]

lemma writeChunk_front_eq {s : CollatorState} {n : String}
    {t : TaskEntry} (c : ITerminalChunk)
    (hf : findTask? s n = some t) (hst : t.state = .Open)
    (hfr : isFront s n = true) :
    writeChunk s n c =
      .ok { s with
            sink := s.sink ++ [⟨n, t.registrationIndex, c⟩],
            tasks := updateTask s.tasks n
              (fun u => { u with written := u.written ++ [c] }) } := by
  unfold writeChunk
  simp only [hf, hst, hfr, if_true]

lemma writeChunk_buffered_eq {s : CollatorState} {n : String}
    {t : TaskEntry} (c : ITerminalChunk)
    (hf : findTask? s n = some t) (hst : t.state = .Open)
    (hfr : isFront s n = false) :
    writeChunk s n c =
      .ok { s with
            tasks := updateTask s.tasks n
              (fun u => { u with buffer := u.buffer ++ [c],
                                 written := u.written ++ [c] }) } := by
  unfold writeChunk
  simp only [hf, hst, hfr, Bool.false_eq_true, if_false]

lemma writeChunk_ok_elim {s : CollatorState} {n : String}
    {c : ITerminalChunk} {s' : CollatorState}
    (h : writeChunk s n c = .ok s') :
    ∃ t, findTask? s n = some t ∧ t.state = .Open ∧
      ((isFront s n = true ∧
        s' = { s with
               sink := s.sink ++ [⟨n, t.registrationIndex, c⟩],
               tasks := updateTask s.tasks n
                 (fun u => { u with written := u.written ++ [c] }) }) ∨
       (isFront s n = false ∧
        s' = { s with
               tasks := updateTask s.tasks n
                 (fun u => { u with buffer := u.buffer ++ [c],
                                    written := u.written ++ [c] }) })) := by
  cases hf : findTask? s n with
  | none => rw [writeChunk, hf] at h; cases h
  | some t =>
    cases hst : t.state with
    | Open =>
      cases hfr : isFront s n with
      | true =>
        rw [writeChunk_front_eq c hf hst hfr] at h
        cases h
        exact ⟨t, rfl, hst, .inl ⟨rfl, rfl⟩⟩
      | false =>
        rw [writeChunk_buffered_eq c hf hst hfr] at h
        cases h
        exact ⟨t, rfl, hst, .inr ⟨rfl, rfl⟩⟩
    | Closed => rw [writeChunk_error_of_state hf (by simp [hst])] at h; cases h
    | Done => rw [writeChunk_error_of_state hf (by simp [hst])] at h; cases h

lemma closeWriter_error_of_state {s : CollatorState} {n : String}
    {t : TaskEntry}
    (hf : findTask? s n = some t) (hst : t.state ≠ .Open) :
    closeWriter s n = .error .AlreadyClosedError := by
  unfold closeWriter
  cases h : t.state with
  | Open => exact absurd h hst
  | Closed => simp only [hf, h]
  | Done => simp only [hf, h]

lemma closeWriter_eq_of_open {s : CollatorState} {n : String}
    {t : TaskEntry}
    (hf : findTask? s n = some t) (hst : t.state = .Open) :
    closeWriter s n =
      .ok { s with
            tasks := (cascade (markClosed s.tasks n)).1
            sink := s.sink ++ (cascade (markClosed s.tasks n)).2 } := by
  unfold closeWriter
  simp only [hf, hst]

lemma closeWriter_ok_elim {s : CollatorState} {n : String} {s' : CollatorState}
    (h : closeWriter s n = .ok s') :
    ∃ t, findTask? s n = some t ∧ t.state = .Open ∧
      s' = { s with
             tasks := (cascade (markClosed s.tasks n)).1
             sink := s.sink ++ (cascade (markClosed s.tasks n)).2 } := by
  cases hf : findTask? s n with
  | none => rw [closeWriter, hf] at h; cases h
  | some t =>
    cases hst : t.state with
    | Open =>
      rw [closeWriter_eq_of_open hf hst] at h
      cases h
      exact ⟨t, rfl, hst, rfl⟩
    | Closed => rw [closeWriter_error_of_state hf (by simp [hst])] at h; cases h
    | Done => rw [closeWriter_error_of_state hf (by simp [hst])] at h; cases h

/-! ### updateTask and registry-shape lemmas -/

lemma updateTask_map_proj {β : Type} (g : TaskEntry → β)
    {f : TaskEntry → TaskEntry} (hg : ∀ t, g (f t) = g t)
    (ts : List TaskEntry) (n : String) :
    (updateTask ts n f).map g = ts.map g := by
  unfold updateTask
  rw [List.map_map]
  apply map_congr_fn
  intro t _
  by_cases h : t.name = n <;> simp [h, hg]

lemma find?_updateTask {ts : List TaskEntry} {n : String}
    {f : TaskEntry → TaskEntry} (hf : ∀ t, (f t).name = t.name) (m : String) :
    (updateTask ts n f).find? (fun t => t.name = m) =
      (ts.find? (fun t => t.name = m)).map
        (fun t => if t.name = n then f t else t) := by
  unfold updateTask
  exact find?_map_pred (fun t => by by_cases h : t.name = n <;> simp [h, hf]) ts

lemma updateTask_split {l₁ : List TaskEntry} {t : TaskEntry}
    {l₂ : List TaskEntry} {n : String} (f : TaskEntry → TaskEntry)
    (h₁ : ∀ u ∈ l₁, u.name ≠ n) (ht : t.name = n) (h₂ : ∀ u ∈ l₂, u.name ≠ n) :
    updateTask (l₁ ++ t :: l₂) n f = l₁ ++ f t :: l₂ := by
  have e₁ : l₁.map (fun u => if u.name = n then f u else u) = l₁ := by
    rw [map_congr_fn (g := id) l₁ (fun u hu => by simp [h₁ u hu]), List.map_id]
  have e₂ : l₂.map (fun u => if u.name = n then f u else u) = l₂ := by
    rw [map_congr_fn (g := id) l₂ (fun u hu => by simp [h₂ u hu]), List.map_id]
  unfold updateTask
  rw [List.map_append, List.map_cons, if_pos ht, e₁, e₂]

lemma nodup_names_split {l₁ : List TaskEntry} {t : TaskEntry}
    {l₂ : List TaskEntry}
    (h : (((l₁ ++ t :: l₂).map TaskEntry.name)).Nodup) :
    (∀ u ∈ l₁, u.name ≠ t.name) ∧ (∀ u ∈ l₂, u.name ≠ t.name) := by
  rw [List.map_append, List.map_cons, List.nodup_append] at h
  obtain ⟨h₁, h₂, h₃⟩ := h
  constructor
  · intro u hu he
    exact h₃ (List.mem_map_of_mem _ hu) (by simp [he])
  · intro u hu he
    exact (List.nodup_cons.1 h₂).1 (he ▸ List.mem_map_of_mem _ hu)

lemma nodup_name_inj {l : List TaskEntry} (h : (l.map TaskEntry.name).Nodup)
    {a b : TaskEntry} (ha : a ∈ l) (hb : b ∈ l) (he : a.name = b.name) :
    a = b := by
  induction l with
  | nil => cases ha
  | cons x xs ih =>
    rw [List.map_cons, List.nodup_cons] at h
    rcases List.mem_cons.1 ha with rfl | ha' <;>
      rcases List.mem_cons.1 hb with rfl | hb'
    · rfl
    · exact absurd (he ▸ List.mem_map_of_mem _ hb') h.1
    · exact absurd (he ▸ List.mem_map_of_mem _ ha') h.1
    · exact ih h.2 ha' hb'

lemma pairwise_lt_split {l₁ : List TaskEntry} {t : TaskEntry}
    {l₂ : List TaskEntry}
    (h : (((l₁ ++ t :: l₂).map TaskEntry.registrationIndex)).Pairwise (· < ·)) :
    ∀ u ∈ l₂, t.registrationIndex < u.registrationIndex := by
  rw [List.map_append, List.pairwise_append] at h
  intro u hu
  have := (List.pairwise_cons.1 h.2.1).1
  exact this _ (List.mem_map_of_mem _ hu)

lemma dropWhile_head_false {α : Type} {p : α → Bool} {l : List α}
    {x : α} {xs : List α} (h : l.dropWhile p = x :: xs) : p x = false := by
  induction l with
  | nil => cases h
  | cons y ys ih =>
    rw [List.dropWhile_cons] at h
    split at h
    · exact ih h
    · next hy =>
      cases h
      exact Bool.not_eq_true _ ▸ (by simpa using hy)

lemma finishEntry_name (t : TaskEntry) : (finishEntry t).name = t.name := by
  cases h : t.state <;> simp [finishEntry, h]

lemma finishEntry_idx (t : TaskEntry) :
    (finishEntry t).registrationIndex = t.registrationIndex := by
  cases h : t.state <;> simp [finishEntry, h]

lemma finishEntry_written (t : TaskEntry) :
    (finishEntry t).written = t.written := by
  cases h : t.state <;> simp [finishEntry, h]

lemma finishEntry_done {t : TaskEntry} (h : notOpenB t = true) :
    (finishEntry t).state = .Done := by
  cases hs : t.state <;> simp [finishEntry, notOpenB, hs] at h ⊢

lemma notOpenB_false_open {t : TaskEntry} (h : notOpenB t = false) :
    t.state = .Open := by
  cases hs : t.state <;> simp [notOpenB, hs] at h ⊢

lemma batchOf_map_chunk (t : TaskEntry) :
    (batchOf t).map SinkEvent.chunk = t.buffer := by
  simp [batchOf, List.map_map]
  exact List.map_id t.buffer

lemma mem_batchOf {t : TaskEntry} {e : SinkEvent} (h : e ∈ batchOf t) :
    e.origin = t.name ∧ e.originIndex = t.registrationIndex ∧
      e.chunk ∈ t.buffer := by
  obtain ⟨c, hc, rfl⟩ := List.mem_map.1 h
  exact ⟨rfl, rfl, hc⟩

lemma cascade_fst_map_proj {β : Type} (g : TaskEntry → β)
    (hg : ∀ t, g (finishEntry t) = g t) (ts : List TaskEntry) :
    (cascade ts).1.map g = ts.map g := by
  rw [cascade_eq]
  simp only [List.map_append, List.map_map]
  rw [map_congr_fn (f := g ∘ finishEntry) (g := g) (ts.takeWhile notOpenB)
      (fun t _ => hg t),
    ← List.map_append, List.takeWhile_append_dropWhile]

lemma mem_cascade_fst {ts : List TaskEntry} {u : TaskEntry}
    (h : u ∈ (cascade ts).1) :
    ∃ v ∈ ts, u = finishEntry v ∨ u = v := by
  rw [cascade_eq] at h
  rcases List.mem_append.1 h with h' | h'
  · obtain ⟨v, hv, rfl⟩ := List.mem_map.1 h'
    exact ⟨v, (List.takeWhile_sublist notOpenB).mem hv, .inl rfl⟩
  · exact ⟨u, (List.dropWhile_sublist notOpenB).mem h', .inr rfl⟩

lemma mem_updateTask {ts : List TaskEntry} {n : String}
    {f : TaskEntry → TaskEntry} {u : TaskEntry} (h : u ∈ updateTask ts n f) :
    ∃ v ∈ ts, (v.name = n ∧ u = f v) ∨ (v.name ≠ n ∧ u = v) := by
  obtain ⟨v, hv, rfl⟩ := List.mem_map.1 h
  by_cases hn : v.name = n
  · exact ⟨v, hv, .inl ⟨hn, by simp [hn]⟩⟩
  · exact ⟨v, hv, .inr ⟨hn, by simp [hn]⟩⟩

lemma ite_update_name {v : TaskEntry} {n : String}
    (f : TaskEntry → TaskEntry) (hf : ∀ u, (f u).name = u.name) :
    (if v.name = n then f v else v).name = v.name := by
  by_cases h : v.name = n <;> simp [h, hf]

lemma ite_update_idx {v : TaskEntry} {n : String}
    (f : TaskEntry → TaskEntry)
    (hf : ∀ u, (f u).registrationIndex = u.registrationIndex) :
    (if v.name = n then f v else v).registrationIndex =
      v.registrationIndex := by
  by_cases h : v.name = n <;> simp [h, hf]

lemma pairwise_le_of_const {r : List Nat} {m : Nat} (hr : ∀ x ∈ r, x = m) :
    r.Pairwise (· ≤ ·) := by
  induction r with
  | nil => exact .nil
  | cons x xs ih =>
    refine List.Pairwise.cons ?_ (ih fun y hy => hr y (List.mem_cons_of_mem _ hy))
    intro y hy
    rw [hr x (List.mem_cons_self _ _), hr y (List.mem_cons_of_mem _ hy)]

/-! ### The reachability invariant -/

/-- The engine-state invariant maintained by every operation: the
registry is sorted by `registrationIndex` with unique names and indexes
below `nextIndex`; `Done` entries have empty buffers; the front entry,
if any, is `Open`; every sink event originates from a registered entry,
every entry registered before an event's origin is `Done`, and the sink
is ordered by origin index; and sink plus buffers account exactly for
the chunks written (per-chunk count conservation). -/
structure Inv (s : CollatorState) : Prop where
  namesNodup : (s.tasks.map TaskEntry.name).Nodup
  idxSorted : (s.tasks.map TaskEntry.registrationIndex).Pairwise (· < ·)
  idxBound : ∀ t ∈ s.tasks, t.registrationIndex < s.nextIndex
  doneEmpty : ∀ t ∈ s.tasks, t.state = .Done → t.buffer = []
  frontOpen : ∀ t, front? s = some t → t.state = .Open
  sinkOrigin : ∀ e ∈ s.sink, ∃ t ∈ s.tasks,
    t.name = e.origin ∧ t.registrationIndex = e.originIndex
  sinkDone : ∀ e ∈ s.sink, ∀ t ∈ s.tasks,
    t.registrationIndex < e.originIndex → t.state = .Done
  sinkSorted : (s.sink.map SinkEvent.originIndex).Pairwise (· ≤ ·)
  conserve : ∀ x : ITerminalChunk,
    (sinkChunks s ++ allBuffered s).count x = (allWritten s).count x

lemma inv_initial : Inv initialState := by
  constructor <;>
    simp [initialState, front?, sinkChunks, allBuffered, allWritten]

/-- The cascade preserves the sink-side invariants: given a sorted
registry, a sink whose events dominate no later non-`Done` entry, and a
sorted sink, appending the cascade's output keeps both properties. -/
lemma cascade_sink_inv (ts : List TaskEntry) (sink : List SinkEvent)
    (hidx : (ts.map TaskEntry.registrationIndex).Pairwise (· < ·))
    (hdone : ∀ e ∈ sink, ∀ t ∈ ts,
      t.registrationIndex < e.originIndex → t.state = .Done)
    (hsorted : (sink.map SinkEvent.originIndex).Pairwise (· ≤ ·)) :
    (∀ e ∈ sink ++ (cascade ts).2, ∀ t ∈ (cascade ts).1,
        t.registrationIndex < e.originIndex → t.state = .Done) ∧
    ((sink ++ (cascade ts).2).map SinkEvent.originIndex).Pairwise (· ≤ ·) := by
  induction ts generalizing sink with
  | nil =>
    refine ⟨?_, ?_⟩
    · intro e _ t ht
      simp [cascade] at ht
    · simpa [cascade] using hsorted
  | cons t rest ih =>
    rw [List.map_cons, List.pairwise_cons] at hidx
    cases hst : t.state with
    | Open =>
      refine ⟨?_, ?_⟩
      · intro e he u hu hlt
        simp only [cascade, hst, List.append_nil] at he hu
        exact hdone e he u hu hlt
      · simpa [cascade, hst] using hsorted
    | Done =>
      have ihr := ih sink hidx.2
        (fun e he u hu hlt => hdone e he u (List.mem_cons_of_mem _ hu) hlt)
        hsorted
      refine ⟨?_, ?_⟩
      · intro e he u hu hlt
        simp only [cascade, hst] at he hu
        rcases List.mem_cons.1 hu with rfl | hu'
        · exact hst
        · exact ihr.1 e he u hu' hlt
      · simpa only [cascade, hst] using ihr.2
    | Closed =>
      have hle : ∀ e ∈ sink, e.originIndex ≤ t.registrationIndex := by
        intro e he
        by_contra hgt
        push_neg at hgt
        have := hdone e he t (List.mem_cons_self _ _) hgt
        rw [hst] at this
        cases this
      have hbatch : ∀ e ∈ t.buffer.map
          (fun c => (⟨t.name, t.registrationIndex, c⟩ : SinkEvent)),
          e.originIndex = t.registrationIndex := by
        intro e he
        obtain ⟨c, _, rfl⟩ := List.mem_map.1 he
        rfl
      have hdone' : ∀ e ∈ sink ++ t.buffer.map
          (fun c => (⟨t.name, t.registrationIndex, c⟩ : SinkEvent)),
          ∀ u ∈ rest, u.registrationIndex < e.originIndex → u.state = .Done := by
        intro e he u hu hlt
        rcases List.mem_append.1 he with he' | he'
        · exact hdone e he' u (List.mem_cons_of_mem _ hu) hlt
        · rw [hbatch e he'] at hlt
          exact absurd (hidx.1 _ (List.mem_map_of_mem _ hu)) (by omega)
      have hsorted' : ((sink ++ t.buffer.map
          (fun c => (⟨t.name, t.registrationIndex, c⟩ : SinkEvent))).map
            SinkEvent.originIndex).Pairwise (· ≤ ·) := by
        rw [List.map_append, List.pairwise_append]
        refine ⟨hsorted, pairwise_le_of_const (m := t.registrationIndex) ?_, ?_⟩
        · intro x hx
          obtain ⟨e, he, rfl⟩ := List.mem_map.1 hx
          exact hbatch e he
        · intro a ha b hb
          obtain ⟨e, he, rfl⟩ := List.mem_map.1 ha
          obtain ⟨e', he', rfl⟩ := List.mem_map.1 hb
          rw [hbatch e' he']
          exact hle e he
      have ihr := ih _ hidx.2 hdone' hsorted'
      refine ⟨?_, ?_⟩
      · intro e he u hu hlt
        simp only [cascade, hst] at he hu
        rw [← List.append_assoc] at he
        rcases List.mem_cons.1 hu with rfl | hu'
        · rfl
        · exact ihr.1 e he u hu' hlt
      · simp only [cascade, hst]
        rw [← List.append_assoc]
        exact ihr.2

lemma isFront_some {s : CollatorState} {n : String}
    (h : isFront s n = true) : ∃ u, front? s = some u ∧ u.name = n := by
  unfold isFront at h
  cases hf : front? s with
  | none => rw [hf] at h; cases h
  | some u => rw [hf] at h; exact ⟨u, rfl, by simpa using h⟩

/-- When the written-to task is the front task, the entry returned by
`front?` is the entry `findTask?` returns. -/
lemma front_eq_found {s : CollatorState} {n : String} {t : TaskEntry}
    (hnd : (s.tasks.map TaskEntry.name).Nodup)
    (hf : findTask? s n = some t) (hfr : isFront s n = true) :
    front? s = some t := by
  obtain ⟨u, hu, hun⟩ := isFront_some hfr
  have humem : u ∈ s.tasks := List.mem_of_find?_eq_some hu
  have htmem : t ∈ s.tasks := List.mem_of_find?_eq_some hf
  have htn : t.name = n := by simpa using List.find?_some hf
  have : u = t := nodup_name_inj hnd humem htmem (hun.trans htn.symm)
  rw [hu, this]

/-- The cascade conserves chunks: the chunks it emits plus the chunks
remaining in buffers account exactly for the chunks that were in the
buffers before. -/
lemma cascade_count (ts : List TaskEntry) (x : ITerminalChunk) :
    ((cascade ts).2.map SinkEvent.chunk).count x +
      (((cascade ts).1.map TaskEntry.buffer).flatten).count x =
    ((ts.map TaskEntry.buffer).flatten).count x := by
  induction ts with
  | nil => simp [cascade]
  | cons t rest ih =>
    cases hst : t.state with
    | Open => simp [cascade, hst]
    | Done =>
      simp only [cascade, hst, List.map_cons, List.flatten_cons,
        List.count_append]
      omega
    | Closed =>
      have hbm : ((t.buffer.map
          (fun c => (⟨t.name, t.registrationIndex, c⟩ : SinkEvent))).map
            SinkEvent.chunk) = t.buffer := by
        rw [List.map_map]
        exact List.map_id t.buffer
      simp only [cascade, hst, List.map_cons, List.map_append, hbm,
        List.flatten_cons, List.count_append, List.count_nil]
      omega

lemma inv_register {s : CollatorState} {n : String} {r : CollatorState}
    {w : CollatedWriter} (hI : Inv s) (h : registerTask s n = .ok (r, w)) :
    Inv r := by
  obtain ⟨hfresh, rfl, rfl⟩ := registerTask_ok_elim h
  refine ⟨?_, ?_, ?_, ?_, ?_, ?_, ?_, ?_, ?_⟩
  · dsimp only
    rw [List.map_append, List.nodup_append]
    refine ⟨hI.namesNodup, by simp, ?_⟩
    intro a ha hb
    simp only [List.map_cons, List.map_nil, List.mem_singleton] at hb
    obtain ⟨v, hv, hvn⟩ := List.mem_map.1 ha
    exact hfresh v hv (hvn.trans hb)
  · dsimp only
    rw [List.map_append, List.pairwise_append]
    refine ⟨hI.idxSorted, by simp, ?_⟩
    intro a ha b hb
    simp only [List.map_cons, List.map_nil, List.mem_singleton] at hb
    obtain ⟨v, hv, hvn⟩ := List.mem_map.1 ha
    subst hb
    rw [← hvn]
    exact hI.idxBound v hv
  · intro u hu
    dsimp only at hu ⊢
    rcases List.mem_append.1 hu with hu' | hu'
    · have := hI.idxBound u hu'
      omega
    · simp only [List.mem_singleton] at hu'
      subst hu'
      dsimp only
      omega
  · intro u hu hd
    dsimp only at hu
    rcases List.mem_append.1 hu with hu' | hu'
    · exact hI.doneEmpty u hu' hd
    · simp only [List.mem_singleton] at hu'
      subst hu'
      cases hd
  · intro u hu
    dsimp only [front?] at hu
    rw [List.find?_append] at hu
    cases hfs : s.tasks.find? (fun t => t.state ≠ TaskState.Done) with
    | some v =>
      rw [hfs] at hu
      simp only [Option.or] at hu
      have hvu : v = u := by simpa using hu
      exact hvu ▸ hI.frontOpen v hfs
    | none =>
      rw [hfs] at hu
      simp only [Option.or] at hu
      rw [List.find?_cons_of_pos _ (by simp)] at hu
      cases hu
      rfl
  · intro e he
    dsimp only at he ⊢
    obtain ⟨v, hv, hvn, hvi⟩ := hI.sinkOrigin e he
    exact ⟨v, List.mem_append_left _ hv, hvn, hvi⟩
  · intro e he u hu hlt
    dsimp only at he hu
    rcases List.mem_append.1 hu with hu' | hu'
    · exact hI.sinkDone e he u hu' hlt
    · simp only [List.mem_singleton] at hu'
      obtain ⟨v, hv, _, hvi⟩ := hI.sinkOrigin e he
      have := hI.idxBound v hv
      subst hu'
      dsimp only at hlt
      omega
  · exact hI.sinkSorted
  · intro x
    have hc := hI.conserve x
    simp only [sinkChunks, allBuffered, allWritten, List.map_append,
      List.flatten_append, List.count_append] at hc ⊢
    simpa using hc

lemma inv_write {s : CollatorState} {n : String} {c : ITerminalChunk}
    {s' : CollatorState} (hI : Inv s) (h : writeChunk s n c = .ok s') :
    Inv s' := by
  obtain ⟨t, hf, hst, hcase⟩ := writeChunk_ok_elim h
  obtain ⟨l₁, l₂, hsplit, hl₁b, hptb⟩ := find?_split hf
  have htn : t.name = n := by simpa using hptb
  have hl₁ : ∀ u ∈ l₁, u.name ≠ n := fun u hu => by simpa using hl₁b u hu
  have htmem : t ∈ s.tasks := List.mem_of_find?_eq_some hf
  have hl₂ : ∀ u ∈ l₂, u.name ≠ n := by
    intro u hu
    rw [← htn]
    exact (nodup_names_split (hsplit ▸ hI.namesNodup)).2 u hu
  have hunique : ∀ v ∈ s.tasks, v.name = n → v = t := by
    intro v hv hvn
    exact nodup_name_inj hI.namesNodup hv htmem (hvn.trans htn.symm)
  rcases hcase with ⟨hfr, rfl⟩ | ⟨hfr, rfl⟩
  · -- live forward by the front task
    have hupd : updateTask s.tasks n
        (fun u => { u with written := u.written ++ [c] }) =
        l₁ ++ { t with written := t.written ++ [c] } :: l₂ := by
      rw [hsplit]
      exact updateTask_split _ hl₁ htn hl₂
    have hfront_t : front? s = some t := front_eq_found hI.namesNodup hf hfr
    obtain ⟨m₁, m₂, hmsplit, hm₁b, _⟩ := find?_split hfront_t
    have hm₁ : ∀ u ∈ m₁, u.state = .Done := by
      intro u hu
      have := hm₁b u hu
      simpa using this
    refine ⟨?_, ?_, ?_, ?_, ?_, ?_, ?_, ?_, ?_⟩
    · dsimp only
      rw [updateTask_map_proj TaskEntry.name (f := fun u => { u with written := u.written ++ [c] }) (fun u => rfl)]
      exact hI.namesNodup
    · dsimp only
      rw [updateTask_map_proj TaskEntry.registrationIndex (f := fun u => { u with written := u.written ++ [c] }) (fun u => rfl)]
      exact hI.idxSorted
    · intro u hu
      dsimp only at hu ⊢
      obtain ⟨v, hv, hc2⟩ := mem_updateTask hu
      rcases hc2 with ⟨_, rfl⟩ | ⟨_, rfl⟩
      · exact hI.idxBound v hv
      · exact hI.idxBound _ hv
    · intro u hu hd
      dsimp only at hu
      obtain ⟨v, hv, hc2⟩ := mem_updateTask hu
      rcases hc2 with ⟨hvn, rfl⟩ | ⟨_, rfl⟩
      · have hvt : v = t := hunique v hv hvn
        subst hvt
        rw [hst] at hd
        cases hd
      · exact hI.doneEmpty _ hv hd
    · intro u hu
      dsimp only [front?] at hu
      rw [show (updateTask s.tasks n
          (fun u => { u with written := u.written ++ [c] })).find?
            (fun t => t.state ≠ TaskState.Done) =
          (s.tasks.find? (fun t => t.state ≠ TaskState.Done)).map
            (fun v => if v.name = n
              then { v with written := v.written ++ [c] } else v) from
          find?_map_pred (fun v => by by_cases hv : v.name = n <;> simp [hv])
            s.tasks] at hu
      rw [show s.tasks.find? (fun t => t.state ≠ TaskState.Done) = some t from
        hfront_t] at hu
      simp only [Option.map] at hu
      have h2 : { t with written := t.written ++ [c] } = u := by
        simpa [htn] using hu
      rw [← h2]
      exact hst
    · intro e he
      dsimp only at he ⊢
      rcases List.mem_append.1 he with he' | he'
      · obtain ⟨v, hv, hvn, hvi⟩ := hI.sinkOrigin e he'
        refine ⟨(if v.name = n
          then { v with written := v.written ++ [c] } else v),
          List.mem_map_of_mem _ hv, ?_, ?_⟩
        · exact (ite_update_name (fun u => { u with written := u.written ++ [c] }) (fun u => rfl)).trans hvn
        · exact (ite_update_idx (fun u => { u with written := u.written ++ [c] }) (fun u => rfl)).trans hvi
      · simp only [List.mem_singleton] at he'
        subst he'
        refine ⟨(if t.name = n
          then { t with written := t.written ++ [c] } else t),
          List.mem_map_of_mem _ htmem, ?_, ?_⟩
        · exact (ite_update_name (fun u => { u with written := u.written ++ [c] }) (fun u => rfl)).trans htn
        · exact (ite_update_idx (fun u => { u with written := u.written ++ [c] }) (fun u => rfl))
    · intro e he u hu hlt
      dsimp only at he hu
      obtain ⟨v, hv, hc2⟩ := mem_updateTask hu
      have hvu_idx : u.registrationIndex = v.registrationIndex := by
        rcases hc2 with ⟨_, rfl⟩ | ⟨_, rfl⟩ <;> rfl
      have hvu_st : u.state = v.state := by
        rcases hc2 with ⟨_, rfl⟩ | ⟨_, rfl⟩ <;> rfl
      rw [hvu_idx] at hlt
      rw [hvu_st]
      rcases List.mem_append.1 he with he' | he'
      · exact hI.sinkDone e he' v hv hlt
      · simp only [List.mem_singleton] at he'
        subst he'
        dsimp only at hlt
        have hvmem : v ∈ l₁ ++ t :: l₂ := hsplit ▸ hv
        have hvmem' : v ∈ m₁ ++ t :: m₂ := hmsplit ▸ hv
        rcases List.mem_append.1 hvmem' with hv' | hv'
        · exact hm₁ v hv'
        · rcases List.mem_cons.1 hv' with rfl | hv''
          · omega
          · have := pairwise_lt_split (hmsplit ▸ hI.idxSorted) v hv''
            omega
    · dsimp only
      rw [List.map_append, List.pairwise_append]
      refine ⟨hI.sinkSorted, by simp, ?_⟩
      intro a ha b hb
      simp only [List.map_cons, List.map_nil, List.mem_singleton] at hb
      subst hb
      obtain ⟨e', he', rfl⟩ := List.mem_map.1 ha
      by_contra hgt
      push_neg at hgt
      have := hI.sinkDone e' he' t htmem hgt
      rw [hst] at this
      cases this
    · intro x
      have hIH := hI.conserve x
      have hbuf : (updateTask s.tasks n
          (fun u => { u with written := u.written ++ [c] })).map
            TaskEntry.buffer = s.tasks.map TaskEntry.buffer :=
        updateTask_map_proj TaskEntry.buffer (f := fun u => { u with written := u.written ++ [c] }) (fun u => rfl) _ _
      simp only [sinkChunks, allBuffered, allWritten] at hIH ⊢
      rw [hbuf, hupd]
      rw [hsplit] at hIH ⊢
      simp only [List.map_append, List.map_cons, List.map_nil,
        List.flatten_append, List.flatten_cons, List.count_append] at hIH ⊢
      omega
  · -- buffered write by a non-front task
    have hupd : updateTask s.tasks n
        (fun u => { u with buffer := u.buffer ++ [c],
                           written := u.written ++ [c] }) =
        l₁ ++ { t with buffer := t.buffer ++ [c],
                       written := t.written ++ [c] } :: l₂ := by
      rw [hsplit]
      exact updateTask_split _ hl₁ htn hl₂
    refine ⟨?_, ?_, ?_, ?_, ?_, ?_, ?_, ?_, ?_⟩
    · dsimp only
      rw [updateTask_map_proj TaskEntry.name (f := fun u => { u with buffer := u.buffer ++ [c], written := u.written ++ [c] }) (fun u => rfl)]
      exact hI.namesNodup
    · dsimp only
      rw [updateTask_map_proj TaskEntry.registrationIndex (f := fun u => { u with buffer := u.buffer ++ [c], written := u.written ++ [c] }) (fun u => rfl)]
      exact hI.idxSorted
    · intro u hu
      dsimp only at hu ⊢
      obtain ⟨v, hv, hc2⟩ := mem_updateTask hu
      rcases hc2 with ⟨_, rfl⟩ | ⟨_, rfl⟩
      · exact hI.idxBound v hv
      · exact hI.idxBound _ hv
    · intro u hu hd
      dsimp only at hu
      obtain ⟨v, hv, hc2⟩ := mem_updateTask hu
      rcases hc2 with ⟨hvn, rfl⟩ | ⟨_, rfl⟩
      · have hvt : v = t := hunique v hv hvn
        subst hvt
        rw [hst] at hd
        cases hd
      · exact hI.doneEmpty _ hv hd
    · intro u hu
      dsimp only [front?] at hu
      rw [show (updateTask s.tasks n
          (fun u => { u with buffer := u.buffer ++ [c],
                             written := u.written ++ [c] })).find?
            (fun t => t.state ≠ TaskState.Done) =
          (s.tasks.find? (fun t => t.state ≠ TaskState.Done)).map
            (fun v => if v.name = n
              then { v with buffer := v.buffer ++ [c],
                            written := v.written ++ [c] } else v) from
          find?_map_pred (fun v => by by_cases hv : v.name = n <;> simp [hv])
            s.tasks] at hu
      cases hfs : s.tasks.find? (fun t => t.state ≠ TaskState.Done) with
      | none => rw [hfs] at hu; cases hu
      | some v =>
        rw [hfs] at hu
        have hvopen : v.state = .Open := hI.frontOpen v hfs
        have : (if v.name = n
            then { v with buffer := v.buffer ++ [c],
                          written := v.written ++ [c] } else v) = u := by
          simpa using hu
        rw [← this]
        by_cases hv' : v.name = n <;> simp [hv', hvopen]
    · intro e he
      dsimp only at he ⊢
      obtain ⟨v, hv, hvn, hvi⟩ := hI.sinkOrigin e he
      refine ⟨(if v.name = n
        then { v with buffer := v.buffer ++ [c],
                      written := v.written ++ [c] } else v),
        List.mem_map_of_mem _ hv, ?_, ?_⟩
      · exact (ite_update_name (fun u => { u with buffer := u.buffer ++ [c], written := u.written ++ [c] }) (fun u => rfl)).trans hvn
      · exact (ite_update_idx (fun u => { u with buffer := u.buffer ++ [c], written := u.written ++ [c] }) (fun u => rfl)).trans hvi
    · intro e he u hu hlt
      dsimp only at he hu
      obtain ⟨v, hv, hc2⟩ := mem_updateTask hu
      have hvu_idx : u.registrationIndex = v.registrationIndex := by
        rcases hc2 with ⟨_, rfl⟩ | ⟨_, rfl⟩ <;> rfl
      have hvu_st : u.state = v.state := by
        rcases hc2 with ⟨_, rfl⟩ | ⟨_, rfl⟩ <;> rfl
      rw [hvu_idx] at hlt
      rw [hvu_st]
      exact hI.sinkDone e he v hv hlt
    · exact hI.sinkSorted
    · intro x
      have hIH := hI.conserve x
      simp only [sinkChunks, allBuffered, allWritten] at hIH ⊢
      rw [hupd]
      rw [hsplit] at hIH
      simp only [List.map_append, List.map_cons, List.flatten_append,
        List.flatten_cons, List.count_append] at hIH ⊢
      omega

lemma inv_close {s : CollatorState} {n : String} {s' : CollatorState}
    (hI : Inv s) (h : closeWriter s n = .ok s') : Inv s' := by
  obtain ⟨t, hf, hst, rfl⟩ := closeWriter_ok_elim h
  obtain ⟨l₁, l₂, hsplit, hl₁b, hptb⟩ := find?_split hf
  have htn : t.name = n := by simpa using hptb
  have hl₁ : ∀ u ∈ l₁, u.name ≠ n := fun u hu => by simpa using hl₁b u hu
  have htmem : t ∈ s.tasks := List.mem_of_find?_eq_some hf
  have hl₂ : ∀ u ∈ l₂, u.name ≠ n := by
    intro u hu
    rw [← htn]
    exact (nodup_names_split (hsplit ▸ hI.namesNodup)).2 u hu
  have hunique : ∀ v ∈ s.tasks, v.name = n → v = t := by
    intro v hv hvn
    exact nodup_name_inj hI.namesNodup hv htmem (hvn.trans htn.symm)
  have hMname : (markClosed s.tasks n).map TaskEntry.name =
      s.tasks.map TaskEntry.name :=
    updateTask_map_proj TaskEntry.name
      (f := fun u => { u with state := .Closed }) (fun u => rfl) _ _
  have hMidx : (markClosed s.tasks n).map TaskEntry.registrationIndex =
      s.tasks.map TaskEntry.registrationIndex :=
    updateTask_map_proj TaskEntry.registrationIndex
      (f := fun u => { u with state := .Closed }) (fun u => rfl) _ _
  have hMbuf : (markClosed s.tasks n).map TaskEntry.buffer =
      s.tasks.map TaskEntry.buffer :=
    updateTask_map_proj TaskEntry.buffer
      (f := fun u => { u with state := .Closed }) (fun u => rfl) _ _
  have hMwritten : (markClosed s.tasks n).map TaskEntry.written =
      s.tasks.map TaskEntry.written :=
    updateTask_map_proj TaskEntry.written
      (f := fun u => { u with state := .Closed }) (fun u => rfl) _ _
  have hMmem : ∀ u ∈ markClosed s.tasks n, ∃ v ∈ s.tasks,
      u.name = v.name ∧ u.registrationIndex = v.registrationIndex ∧
      u.buffer = v.buffer ∧ (v.state = .Done → u.state = .Done) := by
    intro u hu
    obtain ⟨w, hw, hcase⟩ := mem_updateTask hu
    rcases hcase with ⟨hwn, rfl⟩ | ⟨_, rfl⟩
    · refine ⟨w, hw, rfl, rfl, rfl, ?_⟩
      intro hwd
      have := hunique w hw hwn
      subst this
      rw [hst] at hwd
      cases hwd
    · exact ⟨u, hw, rfl, rfl, rfl, id⟩
  have hMdone : ∀ u ∈ markClosed s.tasks n, u.state = .Done →
      u.buffer = [] := by
    intro u hu hd
    obtain ⟨w, hw, hcase⟩ := mem_updateTask hu
    rcases hcase with ⟨_, rfl⟩ | ⟨_, rfl⟩
    · simp at hd
    · exact hI.doneEmpty _ hw hd
  have hpair : ((cascade (markClosed s.tasks n)).1.map
      (fun t => (t.name, t.registrationIndex))) =
      s.tasks.map (fun t => (t.name, t.registrationIndex)) := by
    rw [cascade_fst_map_proj (fun t => (t.name, t.registrationIndex))
      (fun t => by simp [finishEntry_name, finishEntry_idx])]
    exact updateTask_map_proj (fun t => (t.name, t.registrationIndex))
      (f := fun u => { u with state := .Closed }) (fun u => rfl) _ _
  have hfind : ∀ nm idx, (∃ v ∈ s.tasks,
      v.name = nm ∧ v.registrationIndex = idx) →
      ∃ u ∈ (cascade (markClosed s.tasks n)).1,
        u.name = nm ∧ u.registrationIndex = idx := by
    intro nm idx ⟨v, hv, hvn, hvi⟩
    have : (nm, idx) ∈ s.tasks.map
        (fun t => (t.name, t.registrationIndex)) := by
      rw [← hvn, ← hvi]
      exact List.mem_map_of_mem _ hv
    rw [← hpair] at this
    obtain ⟨u, hu, hue⟩ := List.mem_map.1 this
    exact ⟨u, hu, congrArg Prod.fst hue, congrArg Prod.snd hue⟩
  have hcasc := cascade_sink_inv (markClosed s.tasks n) s.sink
    (hMidx ▸ hI.idxSorted)
    (by
      intro e he u hu hlt
      obtain ⟨v, hv, _, hvi, _, hvd⟩ := hMmem u hu
      rw [hvi] at hlt
      exact hvd (hI.sinkDone e he v hv hlt))
    hI.sinkSorted
  refine ⟨?_, ?_, ?_, ?_, ?_, ?_, ?_, ?_, ?_⟩
  · dsimp only
    rw [cascade_fst_map_proj TaskEntry.name finishEntry_name, hMname]
    exact hI.namesNodup
  · dsimp only
    rw [cascade_fst_map_proj TaskEntry.registrationIndex finishEntry_idx,
      hMidx]
    exact hI.idxSorted
  · intro u hu
    dsimp only at hu ⊢
    obtain ⟨v, hv, hcase⟩ := mem_cascade_fst hu
    obtain ⟨w, hw, _, hwi, _, _⟩ := hMmem v hv
    have : u.registrationIndex = v.registrationIndex := by
      rcases hcase with rfl | rfl
      · exact finishEntry_idx v
      · rfl
    rw [this, hwi]
    exact hI.idxBound w hw
  · intro u hu hd
    dsimp only at hu
    rw [cascade_eq] at hu
    rcases List.mem_append.1 hu with hu' | hu'
    · obtain ⟨v, hv, rfl⟩ := List.mem_map.1 hu'
      have hvM : v ∈ markClosed s.tasks n :=
        (List.takeWhile_sublist _).mem hv
      cases hvs : v.state with
      | Open =>
        have hno := List.mem_takeWhile_imp hv
        simp [notOpenB, hvs] at hno
      | Closed => simp [finishEntry, hvs]
      | Done =>
        have heq : finishEntry v = v := by simp [finishEntry, hvs]
        rw [heq]
        exact hMdone v hvM hvs
    · have hvM : u ∈ markClosed s.tasks n :=
        (List.dropWhile_sublist _).mem hu'
      exact hMdone u hvM hd
  · intro u hu
    dsimp only [front?] at hu
    rw [cascade_eq] at hu
    rw [List.find?_append] at hu
    have h1 : ((markClosed s.tasks n).takeWhile notOpenB |>.map
        finishEntry).find? (fun t => t.state ≠ TaskState.Done) = none := by
      rw [List.find?_eq_none]
      intro x hx
      obtain ⟨v, hv, rfl⟩ := List.mem_map.1 hx
      simp [finishEntry_done (List.mem_takeWhile_imp hv)]
    rw [h1] at hu
    simp only [Option.or] at hu
    cases hdw : (markClosed s.tasks n).dropWhile notOpenB with
    | nil => rw [hdw] at hu; cases hu
    | cons x xs =>
      rw [hdw] at hu
      have hx : x.state = .Open := notOpenB_false_open (dropWhile_head_false hdw)
      rw [List.find?_cons_of_pos _ (by simp [hx])] at hu
      have : x = u := by simpa using hu
      rw [← this]
      exact hx
  · intro e he
    dsimp only at he ⊢
    rcases List.mem_append.1 he with he' | he'
    · obtain ⟨v, hv, hvn, hvi⟩ := hI.sinkOrigin e he'
      obtain ⟨u, hu, hun, hui⟩ := hfind e.origin e.originIndex ⟨v, hv, hvn, hvi⟩
      exact ⟨u, hu, hun, hui⟩
    · rw [cascade_eq] at he'
      dsimp only at he'
      obtain ⟨l, hl, hel⟩ := List.mem_flatten.1 he'
      obtain ⟨v, hv, rfl⟩ := List.mem_map.1 hl
      have hvM : v ∈ markClosed s.tasks n :=
        (List.takeWhile_sublist _).mem (List.mem_of_mem_filter hv)
      obtain ⟨hon, hoi, _⟩ := mem_batchOf hel
      obtain ⟨w, hw, hwn, hwi, _, _⟩ := hMmem v hvM
      obtain ⟨u, hu, hun, hui⟩ := hfind e.origin e.originIndex
        ⟨w, hw, by rw [← hwn, ← hon], by rw [← hwi, ← hoi]⟩
      exact ⟨u, hu, hun, hui⟩
  · intro e he u hu hlt
    exact hcasc.1 e he u hu hlt
  · exact hcasc.2
  · intro x
    have hIH := hI.conserve x
    have hcc := cascade_count (markClosed s.tasks n) x
    have hw : ((cascade (markClosed s.tasks n)).1.map TaskEntry.written) =
        s.tasks.map TaskEntry.written := by
      rw [cascade_fst_map_proj TaskEntry.written finishEntry_written,
        hMwritten]
    rw [hMbuf] at hcc
    simp only [sinkChunks, allBuffered, allWritten] at hIH ⊢
    rw [hw]
    simp only [List.map_append, List.count_append] at hIH hcc ⊢
    omega

lemma inv_step {s : CollatorState} (hI : Inv s) (op : Op) :
    Inv (step s op) := by
  cases op with
  | register n =>
    dsimp only [step]
    cases h : registerTask s n with
    | ok p => exact inv_register (r := p.1) (w := p.2) hI h
    | error e => exact hI
  | write n c =>
    dsimp only [step]
    cases h : writeChunk s n c with
    | ok s₁ => exact inv_write hI h
    | error e => exact hI
  | close n =>
    dsimp only [step]
    cases h : closeWriter s n with
    | ok s₁ => exact inv_close hI h
    | error e => exact hI

lemma inv_foldl (ops : List Op) :
    ∀ s : CollatorState, Inv s → Inv (ops.foldl step s) := by
  induction ops with
  | nil => exact fun s hI => hI
  | cons op rest ih => exact fun s hI => ih (step s op) (inv_step hI op)

/-- Every state reached by running a sequence of operations satisfies
the engine invariant. -/
lemma inv_run (ops : List Op) : Inv (run ops) :=
  inv_foldl ops initialState inv_initial

lemma run_snoc (ops : List Op) (op : Op) :
    run (ops ++ [op]) = step (run ops) op := by
  simp [run, List.foldl_append]

lemma nodup_idx_inj {l : List TaskEntry}
    (h : (l.map TaskEntry.registrationIndex).Pairwise (· < ·))
    {a b : TaskEntry} (ha : a ∈ l) (hb : b ∈ l)
    (he : a.registrationIndex = b.registrationIndex) : a = b := by
  have hnd : (l.map TaskEntry.registrationIndex).Nodup :=
    h.imp (fun hlt => Nat.ne_of_lt hlt)
  induction l with
  | nil => cases ha
  | cons x xs ih =>
    rw [List.map_cons, List.nodup_cons] at hnd
    rw [List.map_cons, List.pairwise_cons] at h
    rcases List.mem_cons.1 ha with rfl | ha' <;>
      rcases List.mem_cons.1 hb with rfl | hb'
    · rfl
    · exact absurd (he ▸ List.mem_map_of_mem _ hb') hnd.1
    · exact absurd (he ▸ List.mem_map_of_mem _ ha') hnd.1
    · exact ih h.2 ha' hb' hnd.2

lemma front?_min_forward {s : CollatorState} (hI : Inv s) {u : TaskEntry}
    (h : front? s = some u) :
    u ∈ s.tasks ∧ u.state ≠ .Done ∧
      ∀ v ∈ s.tasks, v.state ≠ .Done →
        u.registrationIndex ≤ v.registrationIndex := by
  obtain ⟨m₁, m₂, hm, hm₁, hpu⟩ := find?_split h
  refine ⟨List.mem_of_find?_eq_some h, by simpa using hpu, ?_⟩
  intro v hv hvnd
  have hvm : v ∈ m₁ ++ u :: m₂ := hm ▸ hv
  rcases List.mem_append.1 hvm with hv' | hv'
  · exact absurd (by simpa using hm₁ v hv') (by simpa using hvnd)
  · rcases List.mem_cons.1 hv' with rfl | hv''
    · exact le_refl _
    · exact le_of_lt (pairwise_lt_split (hm ▸ hI.idxSorted) v hv'')

/-- Faithfulness of `front?`: under the invariant, the front entry is
exactly the non-`Done` entry with the smallest `registrationIndex`, as
the specification phrases it. -/
lemma front?_min {s : CollatorState} (hI : Inv s) {u : TaskEntry} :
    front? s = some u ↔
      u ∈ s.tasks ∧ u.state ≠ .Done ∧
        ∀ v ∈ s.tasks, v.state ≠ .Done →
          u.registrationIndex ≤ v.registrationIndex := by
  constructor
  · exact front?_min_forward hI
  · rintro ⟨hmem, hnd, hmin⟩
    cases hfs : front? s with
    | none =>
      have := List.find?_eq_none.1 hfs u hmem
      simp at this
      exact absurd this hnd
    | some w =>
      obtain ⟨hwmem, hwnd, hwmin⟩ := front?_min_forward hI hfs
      have h1 := hmin w hwmem hwnd
      have h2 := hwmin u hmem hnd
      have : w = u := nodup_idx_inj hI.idxSorted hwmem hmem (by omega)
      rw [this]

lemma find?_of_mem_nodup {l : List TaskEntry}
    (hnd : (l.map TaskEntry.name).Nodup) {t : TaskEntry} (ht : t ∈ l) :
    l.find? (fun u => u.name = t.name) = some t := by
  induction l with
  | nil => cases ht
  | cons x xs ih =>
    rw [List.map_cons, List.nodup_cons] at hnd
    by_cases hx : x.name = t.name
    · have : x = t := by
        rcases List.mem_cons.1 ht with rfl | ht'
        · rfl
        · exact absurd (hx ▸ List.mem_map_of_mem _ ht') hnd.1
      rw [List.find?_cons_of_pos _ (by simp [hx]), this]
    · have ht' : t ∈ xs := by
        rcases List.mem_cons.1 ht with rfl | ht'
        · exact absurd rfl hx
        · exact ht'
      rw [List.find?_cons_of_neg _ (by simp [hx])]
      exact ih hnd.2 ht'

lemma cascade_out_origins {ts : List TaskEntry} :
    ∀ e ∈ (cascade ts).2, ∃ v ∈ ts, e.origin = v.name := by
  intro e he
  rw [cascade_eq] at he
  obtain ⟨l, hl, hel⟩ := List.mem_flatten.1 he
  obtain ⟨v, hv, rfl⟩ := List.mem_map.1 hl
  have hvts : v ∈ ts :=
    (List.takeWhile_sublist _).mem (List.mem_of_mem_filter hv)
  exact ⟨v, hvts, (mem_batchOf hel).1⟩

/-- Per-task effect of the cascade: for each registry entry, either its
unique namesake in the result is `Done` — in which case the events the
cascade emitted for that name carry exactly the entry's buffer, in
order, and the resulting buffer is empty — or the entry is untouched
and no event was emitted for it. -/
lemma cascade_per_name {ts : List TaskEntry}
    (hnd : (ts.map TaskEntry.name).Nodup)
    (hde : ∀ t ∈ ts, t.state = .Done → t.buffer = []) :
    ∀ t ∈ ts,
      ∃ t' ∈ (cascade ts).1, t'.name = t.name ∧
        t'.registrationIndex = t.registrationIndex ∧
        t'.written = t.written ∧
        ((t'.state = .Done ∧ t.state ≠ .Open ∧
          ((cascade ts).2.filter
            (fun e => e.origin = t.name)).map SinkEvent.chunk = t.buffer ∧
          t'.buffer = []) ∨
         (t'.state ≠ .Done ∧ t' = t ∧
          (cascade ts).2.filter (fun e => e.origin = t.name) = [])) := by
  induction ts with
  | nil => intro t ht; cases ht
  | cons t₀ rest ih =>
    rw [List.map_cons, List.nodup_cons] at hnd
    have hrest_notn : ∀ u ∈ rest, u.name ≠ t₀.name := by
      intro u hu he
      exact hnd.1 (he ▸ List.mem_map_of_mem _ hu)
    have hout_rest : ∀ m, (∀ u ∈ rest, u.name ≠ m) →
        (cascade rest).2.filter (fun e => e.origin = m) = [] := by
      intro m hm
      rw [List.filter_eq_nil_iff]
      intro e he
      obtain ⟨v, hv, hev⟩ := cascade_out_origins e he
      simp only [decide_eq_true_eq]
      intro hem
      exact hm v hv (hev ▸ hem)
    intro t ht
    cases hst : t₀.state with
    | Done =>
      rcases List.mem_cons.1 ht with rfl | ht'
      · refine ⟨t, ?_, rfl, rfl, rfl, .inl ⟨hst, by simp [hst], ?_, ?_⟩⟩
        · simp only [cascade, hst]
          exact List.mem_cons_self _ _
        · simp only [cascade, hst]
          rw [hout_rest t.name hrest_notn]
          rw [hde t (List.mem_cons_self _ _) hst]
          rfl
        · exact hde t (List.mem_cons_self _ _) hst
      · obtain ⟨t', ht'm, h1, h2, h3, h4⟩ :=
          ih hnd.2 (fun u hu => hde u (List.mem_cons_of_mem _ hu)) t ht'
        refine ⟨t', ?_, h1, h2, h3, ?_⟩
        · simp only [cascade, hst]
          exact List.mem_cons_of_mem _ ht'm
        · simpa only [cascade, hst] using h4
    | Closed =>
      rcases List.mem_cons.1 ht with rfl | ht'
      · refine ⟨{ t with buffer := [], state := .Done }, ?_, rfl, rfl, rfl,
          .inl ⟨rfl, by simp [hst], ?_, rfl⟩⟩
        · simp only [cascade, hst]
          exact List.mem_cons_self _ _
        · simp only [cascade, hst]
          rw [List.filter_append, hout_rest t.name hrest_notn,
            List.append_nil]
          rw [List.filter_eq_self.2 (by
            intro e he
            simp only [decide_eq_true_eq]
            exact ((mem_batchOf (t := t) he).1))]
          exact batchOf_map_chunk t
      · obtain ⟨t', ht'm, h1, h2, h3, h4⟩ :=
          ih hnd.2 (fun u hu => hde u (List.mem_cons_of_mem _ hu)) t ht'
        have hflt : (t₀.buffer.map
            (fun c => (⟨t₀.name, t₀.registrationIndex, c⟩ : SinkEvent))).filter
              (fun e => e.origin = t.name) = [] := by
          rw [List.filter_eq_nil_iff]
          intro e he
          obtain ⟨he1, _, _⟩ := mem_batchOf (t := t₀) he
          simp only [decide_eq_true_eq]
          rw [he1]
          intro hcon
          exact hrest_notn t ht' hcon.symm
        refine ⟨t', ?_, h1, h2, h3, ?_⟩
        · simp only [cascade, hst]
          exact List.mem_cons_of_mem _ ht'm
        · simp only [cascade, hst, List.filter_append, hflt,
            List.nil_append]
          exact h4
    | Open =>
      refine ⟨t, ?_, rfl, rfl, rfl, ?_⟩
      · simp only [cascade, hst]
        exact ht
      · cases htd : t.state with
        | Done =>
          refine .inl ⟨rfl, by simp, ?_, hde t ht htd⟩
          simp only [cascade, hst, List.filter_nil, List.map_nil]
          exact (hde t ht htd).symm
        | Open =>
          refine .inr ⟨by simp [htd], rfl, ?_⟩
          simp only [cascade, hst, List.filter_nil]
        | Closed =>
          refine .inr ⟨by simp [htd], rfl, ?_⟩
          simp only [cascade, hst, List.filter_nil]

lemma markClosed_map_name (ts : List TaskEntry) (n : String) :
    (markClosed ts n).map TaskEntry.name = ts.map TaskEntry.name :=
  updateTask_map_proj TaskEntry.name
    (f := fun u => { u with state := .Closed }) (fun _ => rfl) _ _

lemma markClosed_doneEmpty {s : CollatorState} (hI : Inv s) (n : String) :
    ∀ u ∈ markClosed s.tasks n, u.state = .Done → u.buffer = [] := by
  intro u hu hd
  obtain ⟨w, hw, hcase⟩ := mem_updateTask hu
  rcases hcase with ⟨_, rfl⟩ | ⟨_, rfl⟩
  · simp at hd
  · exact hI.doneEmpty _ hw hd

/-- Per-task effect of a successful `close`: each previously registered
entry either ends up `Done` — with its buffered chunks appended, in
order, to its sink emissions and its buffer emptied — or is left with
its buffer and emissions untouched (only the closed task itself changes
state from `Open` to `Closed` in that case). -/
lemma close_effect {s : CollatorState} {n : String} {s' : CollatorState}
    (hI : Inv s) (h : closeWriter s n = .ok s') :
    ∀ t ∈ s.tasks, ∃ t' ∈ s'.tasks,
      t'.name = t.name ∧
      t'.registrationIndex = t.registrationIndex ∧
      t'.written = t.written ∧
      ((t'.state = .Done ∧
        emissionsOf s' t.name = emissionsOf s t.name ++ t.buffer ∧
        t'.buffer = [] ∧ (t.name ≠ n → t.state ≠ .Open)) ∨
       (t'.state ≠ .Done ∧ t'.buffer = t.buffer ∧
        t'.state = (if t.name = n then .Closed else t.state) ∧
        emissionsOf s' t.name = emissionsOf s t.name)) := by
  obtain ⟨tf, hff, hfst, rfl⟩ := closeWriter_ok_elim h
  intro t ht
  have hMnd : ((markClosed s.tasks n).map TaskEntry.name).Nodup := by
    rw [markClosed_map_name]
    exact hI.namesNodup
  have htM : (if t.name = n then { t with state := TaskState.Closed } else t)
      ∈ markClosed s.tasks n := List.mem_map_of_mem _ ht
  obtain ⟨t', ht'm, h1, h2, h3, h4⟩ :=
    cascade_per_name hMnd (markClosed_doneEmpty hI n) _ htM
  have hname : (if t.name = n then { t with state := TaskState.Closed }
      else t).name = t.name := by
    by_cases htn : t.name = n <;> simp [htn]
  have hidx : (if t.name = n then { t with state := TaskState.Closed }
      else t).registrationIndex = t.registrationIndex := by
    by_cases htn : t.name = n <;> simp [htn]
  have hwr : (if t.name = n then { t with state := TaskState.Closed }
      else t).written = t.written := by
    by_cases htn : t.name = n <;> simp [htn]
  have hbuf : (if t.name = n then { t with state := TaskState.Closed }
      else t).buffer = t.buffer := by
    by_cases htn : t.name = n <;> simp [htn]
  have hemm : ∀ m, emissionsOf { s with
        tasks := (cascade (markClosed s.tasks n)).1,
        sink := s.sink ++ (cascade (markClosed s.tasks n)).2 } m =
      emissionsOf s m ++
        (((cascade (markClosed s.tasks n)).2.filter
          (fun e => e.origin = m)).map SinkEvent.chunk) := by
    intro m
    simp [emissionsOf, List.filter_append]
  refine ⟨t', ht'm, h1.trans hname, h2.trans hidx, h3.trans hwr, ?_⟩
  rw [hname] at h4
  rcases h4 with ⟨ha, hb, hc, hd⟩ | ⟨ha, hb, hc⟩
  · refine .inl ⟨ha, ?_, hd, ?_⟩
    · rw [hemm t.name, hc, hbuf]
    · intro htn hopen
      rw [if_neg htn] at hb
      rw [hopen] at hb
      exact hb rfl
  · refine .inr ⟨ha, ?_, ?_, ?_⟩
    · rw [hb, hbuf]
    · rw [hb]
      by_cases htn : t.name = n <;> simp [htn]
    · rw [hemm t.name, hc]
      simp

/-- No sink event is attributed to an unregistered name. -/
lemma emissionsOf_not_registered {s : CollatorState} (hI : Inv s)
    {m : String} (h : ∀ t ∈ s.tasks, t.name ≠ m) :
    emissionsOf s m = [] := by
  unfold emissionsOf
  rw [List.filter_eq_nil_iff.2, List.map_nil]
  intro e he
  obtain ⟨v, hv, hvn, _⟩ := hI.sinkOrigin e he
  simp only [decide_eq_true_eq]
  intro hem
  exact h v hv (hvn.trans hem)

/-- `Done` is terminal across any single operation. -/
lemma done_persist_step {s : CollatorState} {m : String} (hI : Inv s)
    (h : stateOf s m = some .Done) (op : Op) :
    stateOf (step s op) m = some .Done := by
  obtain ⟨t, hft, htd⟩ : ∃ t, findTask? s m = some t ∧ t.state = .Done := by
    unfold stateOf at h
    cases hf : findTask? s m with
    | none => rw [hf] at h; cases h
    | some t =>
      rw [hf] at h
      exact ⟨t, rfl, by simpa using h⟩
  have htm : t ∈ s.tasks := List.mem_of_find?_eq_some hft
  have htname : t.name = m := by simpa using List.find?_some hft
  cases op with
  | register k =>
    dsimp only [step]
    cases hr : registerTask s k with
    | error e => exact h
    | ok p =>
      obtain ⟨hfresh, hs, _⟩ := registerTask_ok_elim (r := p.1) (w := p.2) hr
      unfold stateOf findTask?
      dsimp only
      rw [hs]
      dsimp only
      rw [List.find?_append]
      unfold stateOf findTask? at h
      cases hby : s.tasks.find? (fun u => u.name = m) with
      | none => rw [hby] at h; cases h
      | some u =>
        rw [hby] at h
        simpa [Option.or] using h
  | write k c =>
    dsimp only [step]
    cases hw : writeChunk s k c with
    | error e => exact h
    | ok s₁ =>
      obtain ⟨u, hfu, hust, hcase⟩ := writeChunk_ok_elim hw
      have hstate : ∀ (f : TaskEntry → TaskEntry),
          (∀ v, (f v).name = v.name) → (∀ v, (f v).state = v.state) →
          stateOf { s with tasks := updateTask s.tasks k f } m =
            some .Done := by
        intro f hfn hfs
        unfold stateOf findTask?
        dsimp only
        rw [find?_updateTask hfn]
        rw [show s.tasks.find? (fun u => u.name = m) = some t from hft]
        simp only [Option.map]
        by_cases htk : t.name = k <;> simp [htk, hfs, htd]
      rcases hcase with ⟨_, rfl⟩ | ⟨_, rfl⟩
      · exact hstate _ (fun v => rfl) (fun v => rfl)
      · exact hstate _ (fun v => rfl) (fun v => rfl)
  | close k =>
    dsimp only [step]
    cases hcl : closeWriter s k with
    | error e => exact h
    | ok s₁ =>
      obtain ⟨t', ht'm, h1, _, _, h4⟩ := close_effect hI hcl t htm
      have hI' : Inv s₁ := inv_close hI hcl
      have hfind : findTask? s₁ m = some t' := by
        have hq := find?_of_mem_nodup hI'.namesNodup ht'm
        rw [h1, htname] at hq
        exact hq
      unfold stateOf
      rw [hfind]
      rcases h4 with ⟨ha, _, _, _⟩ | ⟨hne, _, hc, _⟩
      · simp [Option.map, ha]
      · by_cases htk : t.name = k
        · obtain ⟨tk, hfk, hkst, _⟩ := closeWriter_ok_elim hcl
          have h1' := find?_of_mem_nodup hI.namesNodup htm
          rw [htk] at h1'
          unfold findTask? at hfk
          rw [h1'] at hfk
          have hteq : t = tk := by simpa using hfk
          rw [hteq, hkst] at htd
          cases htd
        · rw [if_neg htk] at hc
          exact absurd (hc.trans htd) hne

lemma updateTask_append_of_notmem {l₁ rest : List TaskEntry} {n : String}
    (f : TaskEntry → TaskEntry) (h : ∀ u ∈ l₁, u.name ≠ n) :
    updateTask (l₁ ++ rest) n f = l₁ ++ updateTask rest n f := by
  unfold updateTask
  rw [List.map_append]
  congr 1
  rw [map_congr_fn (g := id) l₁ (fun u hu => by simp [h u hu]), List.map_id]

lemma updateTask_cons_ne {x : TaskEntry} {rest : List TaskEntry} {n : String}
    (f : TaskEntry → TaskEntry) (hx : x.name ≠ n) :
    updateTask (x :: rest) n f = x :: updateTask rest n f := by
  unfold updateTask
  rw [List.map_cons, if_neg hx]

lemma finishEntry_of_done {t : TaskEntry} (h : t.state = .Done) :
    finishEntry t = t := by
  simp [finishEntry, h]

lemma takeWhile_all_stop {p : TaskEntry → Bool} (l₁ : List TaskEntry)
    (x : TaskEntry) (rest : List TaskEntry)
    (h1 : ∀ u ∈ l₁, p u = true) (hx : p x = false) :
    (l₁ ++ x :: rest).takeWhile p = l₁ ∧
    (l₁ ++ x :: rest).dropWhile p = x :: rest := by
  induction l₁ with
  | nil => simp [List.takeWhile_cons, List.dropWhile_cons, hx]
  | cons y ys ih =>
    have hy : p y = true := h1 y (List.mem_cons_self _ _)
    have ihr := ih (fun u hu => h1 u (List.mem_cons_of_mem _ hu))
    simp only [List.cons_append, List.takeWhile_cons, List.dropWhile_cons,
      hy, if_true, ihr.1, ihr.2]
    simp

/-- Closing a task that is not the front task flushes nothing: the sink
is unchanged and the registry is only the `Open → Closed` marking. -/
lemma close_nonfront {s : CollatorState} {n : String} {s' : CollatorState}
    (hI : Inv s) (h : closeWriter s n = .ok s')
    (hnf : isFront s n = false) :
    s'.sink = s.sink ∧ s'.tasks = markClosed s.tasks n := by
  obtain ⟨t, hf, hst, rfl⟩ := closeWriter_ok_elim h
  have htmem := List.mem_of_find?_eq_some hf
  have htn : t.name = n := by simpa using List.find?_some hf
  cases hfs : front? s with
  | none =>
    have := List.find?_eq_none.1 hfs t htmem
    rw [hst] at this
    simp at this
  | some fr =>
    have hfropen : fr.state = .Open := hI.frontOpen fr hfs
    have hfrn : fr.name ≠ n := by
      unfold isFront at hnf
      rw [hfs] at hnf
      simpa using hnf
    obtain ⟨m₁, m₂, hmsplit, hm₁b, _⟩ := find?_split hfs
    have hm₁d : ∀ u ∈ m₁, u.state = .Done := fun u hu => by
      simpa using hm₁b u hu
    have hm₁n : ∀ u ∈ m₁, u.name ≠ n := by
      intro u hu he
      have hut : u = t :=
        nodup_name_inj hI.namesNodup
          (by rw [hmsplit]; exact List.mem_append_left _ hu) htmem
          (he.trans htn.symm)
      have := hm₁d u hu
      rw [hut, hst] at this
      cases this
    have hM : markClosed s.tasks n = m₁ ++ fr :: markClosed m₂ n := by
      rw [hmsplit, markClosed, updateTask_append_of_notmem _ hm₁n,
        updateTask_cons_ne _ hfrn]
      rfl
    have htk := takeWhile_all_stop (p := notOpenB) m₁ fr (markClosed m₂ n)
      (fun u hu => by
        have := hm₁d u hu
        simp [notOpenB, this])
      (by simp [notOpenB, hfropen])
    have hfl : m₁.filter isClosedB = [] := by
      rw [List.filter_eq_nil_iff]
      intro u hu
      have := hm₁d u hu
      simp [isClosedB, this]
    constructor
    · dsimp only
      rw [cascade_eq, hM, htk.1, hfl]
      simp
    · dsimp only
      rw [cascade_eq, hM, htk.1, htk.2,
        map_congr_fn (g := id) m₁ (fun u hu => by
          simp [finishEntry_of_done (hm₁d u hu)]), List.map_id, ← hM]

/-! ### Per-task FIFO accounting -/

/-- An operation that live-forwards a chunk for a task whose buffer is
non-empty: the one situation in which a live chunk overtakes the task's
own buffered history. -/
def liveOvertake (s : CollatorState) : Op → Bool
  | .write n _ => isFront s n && !(peekBuffer s n).isEmpty
  | _ => false

/-- Whether a sequence of operations, run from `s`, never live-forwards
a chunk while the writing task's buffer is non-empty. -/
def cleanFrom : CollatorState → List Op → Bool
  | _, [] => true
  | s, op :: ops => !liveOvertake s op && cleanFrom (step s op) ops

/-- Whether a run from the initial state never live-forwards a chunk
while the writing task's buffer is non-empty. -/
def cleanRun (ops : List Op) : Bool := cleanFrom initialState ops

/-- Per-task FIFO accounting: each task's sink emissions followed by its
still-buffered chunks are exactly its written sequence, in order. -/
def FifoInv (s : CollatorState) : Prop :=
  ∀ t ∈ s.tasks, emissionsOf s t.name ++ t.buffer = t.written

lemma fifo_initial : FifoInv initialState := by
  intro t ht
  cases ht

lemma filter_origin_single (n m : String) (i : Nat) (c : ITerminalChunk) :
    (([⟨n, i, c⟩] : List SinkEvent)).filter (fun e => e.origin = m) =
      if n = m then [⟨n, i, c⟩] else [] := by
  by_cases h : n = m <;> simp [List.filter, h]

lemma fifo_step {s : CollatorState} (hI : Inv s) (hF : FifoInv s) (op : Op)
    (hclean : liveOvertake s op = false) : FifoInv (step s op) := by
  cases op with
  | register k =>
    dsimp only [step]
    cases hr : registerTask s k with
    | error e => exact hF
    | ok p =>
      obtain ⟨hfresh, hs, _⟩ := registerTask_ok_elim (r := p.1) (w := p.2) hr
      dsimp only
      rw [hs]
      intro u hu
      dsimp only at hu
      rcases List.mem_append.1 hu with hu' | hu'
      · exact hF u hu'
      · simp only [List.mem_singleton] at hu'
        subst hu'
        have he : emissionsOf s k = [] := emissionsOf_not_registered hI hfresh
        show emissionsOf s k ++ ([] : List ITerminalChunk) = []
        rw [he]
        rfl
  | write k c =>
    dsimp only [step]
    cases hw : writeChunk s k c with
    | error e => exact hF
    | ok s₁ =>
      obtain ⟨t, hf, hst, hcase⟩ := writeChunk_ok_elim hw
      obtain ⟨l₁, l₂, hsplit, hl₁b, hptb⟩ := find?_split hf
      have htn : t.name = k := by simpa using hptb
      have hl₁ : ∀ u ∈ l₁, u.name ≠ k := fun u hu => by simpa using hl₁b u hu
      have htmem : t ∈ s.tasks := List.mem_of_find?_eq_some hf
      have hl₂ : ∀ u ∈ l₂, u.name ≠ k := by
        intro u hu
        rw [← htn]
        exact (nodup_names_split (hsplit ▸ hI.namesNodup)).2 u hu
      rcases hcase with ⟨hfr, rfl⟩ | ⟨hfr, rfl⟩
      · -- live forward: the clean hypothesis forces an empty buffer
        have hbe : t.buffer = [] := by
          simp only [liveOvertake] at hclean
          rw [hfr] at hclean
          simp only [Bool.true_and, Bool.not_eq_false'] at hclean
          have : peekBuffer s k = [] := by
            cases hpb : peekBuffer s k with
            | nil => rfl
            | cons a l => rw [hpb] at hclean; cases hclean
          unfold peekBuffer at this
          rw [hf] at this
          exact this
        have hupd : updateTask s.tasks k
            (fun u => { u with written := u.written ++ [c] }) =
            l₁ ++ { t with written := t.written ++ [c] } :: l₂ := by
          rw [hsplit]
          exact updateTask_split _ hl₁ htn hl₂
        intro u hu
        dsimp only at hu
        rw [hupd] at hu
        have hemm : ∀ m, emissionsOf { s with
              sink := s.sink ++ [⟨k, t.registrationIndex, c⟩],
              tasks := updateTask s.tasks k
                (fun u => { u with written := u.written ++ [c] }) } m =
            emissionsOf s m ++ (if k = m then [c] else []) := by
          intro m
          simp only [emissionsOf, List.filter_append, List.map_append]
          rw [filter_origin_single]
          by_cases hkm : k = m <;> simp [hkm]
        rcases List.mem_append.1 hu with hu' | hu'
        · have hun : u.name ≠ k := hl₁ u hu'
          rw [hemm u.name, if_neg (fun hkm => hun hkm.symm)]
          simp only [List.append_nil]
          exact hF u (by rw [hsplit]; exact List.mem_append_left _ hu')
        · rcases List.mem_cons.1 hu' with rfl | hu''
          · rw [hemm]
            simp only [htn, if_pos rfl]
            have := hF t htmem
            rw [hbe, List.append_nil] at this
            simp only [htn] at this ⊢
            rw [this]
            simp [hbe]
          · have hun : u.name ≠ k := hl₂ u hu''
            rw [hemm u.name, if_neg (fun hkm => hun hkm.symm)]
            simp only [List.append_nil]
            exact hF u (by
              rw [hsplit]
              exact List.mem_append_right _ (List.mem_cons_of_mem _ hu''))
      · -- buffered write: the sink is unchanged
        have hupd : updateTask s.tasks k
            (fun u => { u with buffer := u.buffer ++ [c],
                               written := u.written ++ [c] }) =
            l₁ ++ { t with buffer := t.buffer ++ [c],
                           written := t.written ++ [c] } :: l₂ := by
          rw [hsplit]
          exact updateTask_split _ hl₁ htn hl₂
        intro u hu
        dsimp only at hu
        rw [hupd] at hu
        have hems : ∀ m, emissionsOf { s with
              tasks := updateTask s.tasks k
                (fun u => { u with buffer := u.buffer ++ [c],
                                   written := u.written ++ [c] }) } m =
            emissionsOf s m := by
          intro m
          simp [emissionsOf]
        rcases List.mem_append.1 hu with hu' | hu'
        · rw [hems]
          exact hF u (by rw [hsplit]; exact List.mem_append_left _ hu')
        · rcases List.mem_cons.1 hu' with rfl | hu''
          · rw [hems]
            simp only [htn]
            have := hF t htmem
            simp only [htn] at this
            rw [← List.append_assoc, this]
          · rw [hems]
            exact hF u (by
              rw [hsplit]
              exact List.mem_append_right _ (List.mem_cons_of_mem _ hu''))
  | close k =>
    dsimp only [step]
    cases hcl : closeWriter s k with
    | error e => exact hF
    | ok s₁ =>
      have hI' : Inv s₁ := inv_close hI hcl
      intro u hu
      -- find the source entry with the same name
      have hnames : s₁.tasks.map TaskEntry.name = s.tasks.map TaskEntry.name := by
        obtain ⟨t, hf, hst, rfl⟩ := closeWriter_ok_elim hcl
        dsimp only
        rw [cascade_fst_map_proj TaskEntry.name finishEntry_name,
          markClosed_map_name]
      have : u.name ∈ s.tasks.map TaskEntry.name := by
        rw [← hnames]
        exact List.mem_map_of_mem _ hu
      obtain ⟨t, htm, htn⟩ := List.mem_map.1 this
      obtain ⟨t', ht'm, h1, _, h3, h4⟩ := close_effect hI hcl t htm
      have hut' : u = t' :=
        nodup_name_inj hI'.namesNodup hu ht'm (htn.symm.trans h1.symm)
      subst hut'
      rcases h4 with ⟨_, hb, hc, _⟩ | ⟨_, hb, _, hd⟩
      · rw [h1, hb, hc, h3, List.append_nil]
        exact hF t htm
      · rw [h1, hb, hd, h3]
        exact hF t htm

lemma fifo_foldl (ops : List Op) :
    ∀ s : CollatorState, Inv s → FifoInv s → cleanFrom s ops = true →
      FifoInv (ops.foldl step s) := by
  induction ops with
  | nil => exact fun s _ hF _ => hF
  | cons op rest ih =>
    intro s hI hF hc
    unfold cleanFrom at hc
    rw [Bool.and_eq_true, Bool.not_eq_true'] at hc
    exact ih (step s op) (inv_step hI op) (fifo_step hI hF op hc.1) hc.2

/-! ### Concrete scenarios from the specification and the test suite -/

/-- A stdout-kind chunk, as written by the test suite. -/
def stdoutChunk (t : String) : ITerminalChunk := ⟨t, .Stdout⟩

/-- A stderr-kind chunk, as written by the test suite. -/
def stderrChunk (t : String) : ITerminalChunk := ⟨t, .Stderr⟩

/-- Spec Scenario B and the test `should not write non-active tasks to
stdout`: A and B registered, A live-writes around B's buffered write,
then both close. -/
def opsScenarioB : List Op :=
  [.register "A", .register "B", .write "A" (stdoutChunk "1"),
   .write "B" (stdoutChunk "2"), .write "A" (stdoutChunk "3"),
   .close "A", .close "B"]

/-- The untested corner: B buffers a chunk, then becomes front (with a
non-empty buffer) when A closes. -/
def opsCorner : List Op :=
  [.register "A", .register "B", .write "B" (stdoutChunk "x"), .close "A"]

/-- The corner continued: the now-front B live-writes past its own
buffered chunk, then closes. -/
def opsCornerFull : List Op :=
  opsCorner ++ [.write "B" (stdoutChunk "y"), .close "B"]

/-- Test `writeLine should add a newline` / spec Scenario A. -/
theorem scenario_basic :
    sinkChunks (run [.register "A",
      .write "A" (stdoutChunk "Hello World")]) =
      [stdoutChunk "Hello World"] := by
  decide

/-- Test `should write errors to stderr`: a stderr chunk is forwarded
live, and close adds nothing and leaves the buffer empty. -/
theorem scenario_stderr :
    sinkChunks (run [.register "A",
      .write "A" (stderrChunk "Critical error")]) =
      [stderrChunk "Critical error"] ∧
    sinkChunks (run [.register "A",
      .write "A" (stderrChunk "Critical error"), .close "A"]) =
      [stderrChunk "Critical error"] ∧
    peekBuffer (run [.register "A",
      .write "A" (stderrChunk "Critical error"), .close "A"]) "A" = [] := by
  decide

/-- Test `should not write non-active tasks to stdout` / spec Scenario
B, step by step: the front task's chunks pass through live, the
non-front task's chunks buffer, and close-time cascading flushes them
last. -/
theorem scenario_interleaving :
    sinkChunks (run (opsScenarioB.take 3)) = [stdoutChunk "1"] ∧
    peekBuffer (run (opsScenarioB.take 3)) "A" = [] ∧
    sinkChunks (run (opsScenarioB.take 4)) = [stdoutChunk "1"] ∧
    peekBuffer (run (opsScenarioB.take 4)) "B" = [stdoutChunk "2"] ∧
    sinkChunks (run (opsScenarioB.take 5)) =
      [stdoutChunk "1", stdoutChunk "3"] ∧
    sinkChunks (run (opsScenarioB.take 6)) =
      [stdoutChunk "1", stdoutChunk "3"] ∧
    sinkChunks (run opsScenarioB) =
      [stdoutChunk "1", stdoutChunk "3", stdoutChunk "2"] ∧
    peekBuffer (run opsScenarioB) "A" = [] ∧
    peekBuffer (run opsScenarioB) "B" = [] ∧
    allDone (run opsScenarioB) = true := by
  decide

/-- Test `should update the active task once the active task is
closed` / spec Scenario C: after A closes, B's next write is forwarded
live and B's close emits nothing further. -/
theorem scenario_handoff :
    sinkChunks (run [.register "A", .register "B",
      .write "A" (stdoutChunk "1"), .close "A",
      .write "B" (stdoutChunk "2")]) =
      [stdoutChunk "1", stdoutChunk "2"] ∧
    sinkChunks (run [.register "A", .register "B",
      .write "A" (stdoutChunk "1"), .close "A",
      .write "B" (stdoutChunk "2"), .close "B"]) =
      [stdoutChunk "1", stdoutChunk "2"] := by
  decide

/-- Test `should write completed tasks after the active task is
completed` / spec Scenario D: closing buffered B flushes nothing until
front A closes. -/
theorem scenario_early_close :
    sinkChunks (run [.register "A", .register "B",
      .write "A" (stdoutChunk "1"), .write "B" (stdoutChunk "2"),
      .close "B"]) = [stdoutChunk "1"] ∧
    sinkChunks (run [.register "A", .register "B",
      .write "A" (stdoutChunk "1"), .write "B" (stdoutChunk "2"),
      .close "B", .close "A"]) = [stdoutChunk "1", stdoutChunk "2"] := by
  decide

lemma peekBuffer_eq_of_updateTask {s s₁ : CollatorState} {n : String}
    {f : TaskEntry → TaskEntry} (hts : s₁.tasks = updateTask s.tasks n f)
    (hfn : ∀ v, (f v).name = v.name) (hfb : ∀ v, (f v).buffer = v.buffer) :
    ∀ m, peekBuffer s₁ m = peekBuffer s m := by
  intro m
  unfold peekBuffer findTask?
  rw [hts, find?_updateTask hfn]
  cases hfm : s.tasks.find? (fun u => u.name = m) with
  | none => rfl
  | some u =>
    simp only [Option.map]
    by_cases hun : u.name = n <;> simp [hun, hfb]

/-- Backwards per-task correspondence for `close`: every entry of the
resulting registry descends from an entry of the same name and index,
and `Done`-ness is inherited. -/
lemma close_entry_of_mem {s : CollatorState} {n : String}
    {s₁ : CollatorState} (hI : Inv s) (hcl : closeWriter s n = .ok s₁) :
    ∀ v ∈ s₁.tasks, ∃ w ∈ s.tasks, v.name = w.name ∧
      v.registrationIndex = w.registrationIndex ∧
      (w.state = .Done → v.state = .Done) := by
  intro v hv
  have hI' : Inv s₁ := inv_close hI hcl
  have hnames : s₁.tasks.map TaskEntry.name = s.tasks.map TaskEntry.name := by
    obtain ⟨t, hf, hst, rfl⟩ := closeWriter_ok_elim hcl
    dsimp only
    rw [cascade_fst_map_proj TaskEntry.name finishEntry_name,
      markClosed_map_name]
  have hvn' : v.name ∈ s.tasks.map TaskEntry.name := by
    rw [← hnames]
    exact List.mem_map_of_mem _ hv
  obtain ⟨w, hw, hwn⟩ := List.mem_map.1 hvn'
  obtain ⟨w', hw'm, h1, h2, _, h4⟩ := close_effect hI hcl w hw
  have hw'v : w' = v := nodup_name_inj hI'.namesNodup hw'm hv (h1.trans hwn)
  subst hw'v
  refine ⟨w, hw, hwn.symm, h2, ?_⟩
  intro hwd
  rcases h4 with ⟨ha, _, _, _⟩ | ⟨hne, _, hc, _⟩
  · exact ha
  · by_cases hwk : w.name = n
    · obtain ⟨tk, hfk, hkst, _⟩ := closeWriter_ok_elim hcl
      have h1' := find?_of_mem_nodup hI.namesNodup hw
      rw [hwk] at h1'
      unfold findTask? at hfk
      rw [h1'] at hfk
      have hwtk : w = tk := by simpa using hfk
      rw [hwtk, hkst] at hwd
      cases hwd
    · rw [if_neg hwk, hwd] at hc
      exact hc

lemma done_persist_foldl (more : List Op) :
    ∀ (s : CollatorState) (m : String), Inv s → stateOf s m = some .Done →
      stateOf (more.foldl step s) m = some .Done := by
  induction more with
  | nil => exact fun s m _ h => h
  | cons op rest ih =>
    exact fun s m hI h =>
      ih (step s op) m (inv_step hI op) (done_persist_step hI h op)

/-! ### The claims -/

/-- Claim C1: for every finite sequence of register, write and close
operations, no chunk is lost and no chunk is emitted twice — the chunks
delivered to the sink together with the chunks still buffered are, as a
multiset, exactly the chunks successfully written by all tasks; in
particular, once every task is `Done`, the chunks delivered to the sink
are exactly the chunks written. -/
theorem c1_no_loss_no_duplication (ops : List Op) :
    (sinkChunks (run ops) ++ allBuffered (run ops)).Perm
      (allWritten (run ops)) ∧
    (allDone (run ops) = true →
      (sinkChunks (run ops)).Perm (allWritten (run ops))) := by
  have hI := inv_run ops
  constructor
  · exact List.perm_iff_count.2 hI.conserve
  · intro hd
    have hb : allBuffered (run ops) = [] := by
      unfold allBuffered
      rw [List.flatten_eq_nil_iff]
      intro l hl
      obtain ⟨t, ht, rfl⟩ := List.mem_map.1 hl
      have := List.all_eq_true.1 hd t ht
      exact hI.doneEmpty t ht (by simpa using this)
    refine List.perm_iff_count.2 (fun x => ?_)
    have hc := hI.conserve x
    rw [hb] at hc
    simpa using hc

theorem c1_witness :
    (sinkChunks (run opsScenarioB) ++ allBuffered (run opsScenarioB)).Perm
      (allWritten (run opsScenarioB)) ∧
    (sinkChunks (run opsScenarioB)).Perm (allWritten (run opsScenarioB)) :=
  ⟨(c1_no_loss_no_duplication opsScenarioB).1,
   (c1_no_loss_no_duplication opsScenarioB).2 (by decide)⟩

/-- Claim C5: emission order respects registration order at task
granularity — the origin indexes of the sink trace are monotone (so all
of an earlier-registered task's emissions precede all of a
later-registered task's emissions), and whenever a task has emitted,
every earlier-registered task is already `Done`.  Quantifying over all
`ops` covers every moment of every execution, since each prefix of an
operation sequence is itself an operation sequence. -/
theorem c5_emission_respects_registration (ops : List Op) :
    ((run ops).sink.map SinkEvent.originIndex).Pairwise (· ≤ ·) ∧
    (∀ e ∈ (run ops).sink, ∀ t ∈ (run ops).tasks,
      t.registrationIndex < e.originIndex → t.state = .Done) :=
  ⟨(inv_run ops).sinkSorted, (inv_run ops).sinkDone⟩

theorem c5_witness :
    ((run opsScenarioB).sink.map SinkEvent.originIndex).Pairwise (· ≤ ·) ∧
    (⟨"A", 0, [], .Done,
      [stdoutChunk "1", stdoutChunk "3"]⟩ : TaskEntry).state = .Done :=
  ⟨(c5_emission_respects_registration opsScenarioB).1,
   (c5_emission_respects_registration opsScenarioB).2
     ⟨"B", 1, stdoutChunk "2"⟩ (by decide)
     ⟨"A", 0, [], .Done, [stdoutChunk "1", stdoutChunk "3"]⟩
     (by decide) (by decide)⟩

/-- Claim C7: `Done` is terminal — once a task is `Done`, its
`peekBuffer` is empty, every `write` fails with `ClosedWriterError`,
every `close` fails with `AlreadyClosedError`, and no further sequence
of operations ever revives it. -/
theorem c7_done_terminal (ops : List Op) (n : String)
    (h : stateOf (run ops) n = some .Done) :
    peekBuffer (run ops) n = [] ∧
    (∀ c, writeChunk (run ops) n c = .error .ClosedWriterError) ∧
    closeWriter (run ops) n = .error .AlreadyClosedError ∧
    (∀ more, stateOf (run (ops ++ more)) n = some .Done) := by
  have hI := inv_run ops
  obtain ⟨t, hf, htd⟩ : ∃ t, findTask? (run ops) n = some t ∧
      t.state = .Done := by
    unfold stateOf at h
    cases hf : findTask? (run ops) n with
    | none => rw [hf] at h; cases h
    | some t =>
      rw [hf] at h
      exact ⟨t, rfl, by simpa using h⟩
  refine ⟨?_, ?_, ?_, ?_⟩
  · unfold peekBuffer
    rw [hf]
    exact hI.doneEmpty t (List.mem_of_find?_eq_some hf) htd
  · intro c
    exact writeChunk_error_of_state hf (by simp [htd])
  · exact closeWriter_error_of_state hf (by simp [htd])
  · intro more
    rw [show run (ops ++ more) = more.foldl step (run ops) from by
      simp [run, List.foldl_append]]
    exact done_persist_foldl more (run ops) n hI h

theorem c7_witness :
    peekBuffer (run [.register "A", .close "A"]) "A" = [] ∧
    writeChunk (run [.register "A", .close "A"]) "A" (stdoutChunk "z") =
      .error .ClosedWriterError ∧
    closeWriter (run [.register "A", .close "A"]) "A" =
      .error .AlreadyClosedError ∧
    stateOf (run ([.register "A", .close "A"] ++
      [.register "B", .close "B"])) "A" = some .Done := by
  have h := c7_done_terminal [.register "A", .close "A"] "A" (by decide)
  exact ⟨h.1, h.2.1 _, h.2.2.1, h.2.2.2 [.register "B", .close "B"]⟩

/-- Claim C8: `registerTask` raises `DuplicateTaskError` when the name
collides with an existing task that is not yet `Done` (the engine keeps
names permanently unique, which subsumes this case), and succeeds with
a writer handle reporting the name when the name is fresh. -/
theorem c8_register_duplicate (s : CollatorState) (n : String) :
    ((∃ t ∈ s.tasks, t.name = n ∧ t.state ≠ .Done) →
      registerTask s n = .error .DuplicateTaskError) ∧
    ((∀ t ∈ s.tasks, t.name ≠ n) →
      ∃ s₁ w, registerTask s n = .ok (s₁, w) ∧ w.taskName = n) := by
  constructor
  · rintro ⟨t, ht, htn, _⟩
    exact registerTask_error_of_mem ht htn
  · intro h
    exact ⟨_, _, registerTask_ok_of_fresh h, rfl⟩

theorem c8_witness :
    registerTask (run [.register "Hello World"]) "Hello World" =
      .error .DuplicateTaskError ∧
    (∃ s₁ w, registerTask (run [.register "Hello World"]) "B" =
      .ok (s₁, w) ∧ w.taskName = "B") :=
  ⟨(c8_register_duplicate (run [.register "Hello World"]) "Hello World").1
     (by decide),
   (c8_register_duplicate (run [.register "Hello World"]) "B").2
     (by decide)⟩

/-- Claim C9: on a task already `Closed` or `Done`, `write` raises
`ClosedWriterError` and `close` raises `AlreadyClosedError`; the
`Except` value returned at the offending call is the synchronous
raise. -/
theorem c9_closed_task_errors (s : CollatorState) (n : String)
    (c : ITerminalChunk)
    (h : stateOf s n = some .Closed ∨ stateOf s n = some .Done) :
    writeChunk s n c = .error .ClosedWriterError ∧
    closeWriter s n = .error .AlreadyClosedError := by
  obtain ⟨t, hf, hst⟩ : ∃ t, findTask? s n = some t ∧
      (t.state = .Closed ∨ t.state = .Done) := by
    unfold stateOf at h
    cases hf : findTask? s n with
    | none => rw [hf] at h; rcases h with h | h <;> cases h
    | some t =>
      rw [hf] at h
      refine ⟨t, rfl, ?_⟩
      rcases h with h | h
      · exact .inl (by simpa using h)
      · exact .inr (by simpa using h)
  have hne : t.state ≠ .Open := by rcases hst with h' | h' <;> simp [h']
  exact ⟨writeChunk_error_of_state hf hne, closeWriter_error_of_state hf hne⟩

theorem c9_witness :
    writeChunk (run [.register "A", .register "B", .close "B"]) "B"
      (stdoutChunk "q") = .error .ClosedWriterError ∧
    closeWriter (run [.register "A", .register "B", .close "B"]) "B" =
      .error .AlreadyClosedError :=
  c9_closed_task_errors (run [.register "A", .register "B", .close "B"])
    "B" (stdoutChunk "q") (.inl (by decide))

/-- Claim C10: a successful `registerTask` has no observable effect
besides creating the new entry — nothing is emitted to the sink, every
previously registered task keeps its state, buffer, written history and
front status, and the returned handle reports the registered name. -/
theorem c10_register_frame (s : CollatorState) (n : String)
    (s₁ : CollatorState) (w : CollatedWriter)
    (h : registerTask s n = .ok (s₁, w)) :
    w.taskName = n ∧
    s₁.sink = s.sink ∧
    (∀ m, (∃ t ∈ s.tasks, t.name = m) →
      stateOf s₁ m = stateOf s m ∧
      peekBuffer s₁ m = peekBuffer s m ∧
      writtenOf s₁ m = writtenOf s m) ∧
    (∀ t ∈ s.tasks, isFront s₁ t.name = isFront s t.name) := by
  obtain ⟨hfresh, rfl, rfl⟩ := registerTask_ok_elim h
  refine ⟨rfl, rfl, ?_, ?_⟩
  · rintro m ⟨t, ht, htm⟩
    obtain ⟨u, hu⟩ : ∃ u, s.tasks.find? (fun u => u.name = m) = some u := by
      cases hfq : s.tasks.find? (fun u => u.name = m) with
      | some u => exact ⟨u, rfl⟩
      | none =>
        have := List.find?_eq_none.1 hfq t ht
        simp [htm] at this
    have h1 : (s.tasks ++
        [(⟨n, s.nextIndex, [], .Open, []⟩ : TaskEntry)]).find?
        (fun u => u.name = m) = some u := by
      rw [List.find?_append, hu]
      rfl
    unfold stateOf peekBuffer writtenOf findTask?
    dsimp only
    rw [h1, hu]
    exact ⟨rfl, rfl, rfl⟩
  · intro t ht
    unfold isFront front?
    dsimp only
    rw [List.find?_append]
    cases hfq : s.tasks.find? (fun u => u.state ≠ TaskState.Done) with
    | some fr =>
      simp [Option.or]
    | none =>
      rw [List.find?_cons_of_pos _ (by simp)]
      simp only [Option.or]
      have hne : ¬(n = t.name) := fun he => hfresh t ht he.symm
      simp [hne]

theorem c10_witness :
    (⟨"B"⟩ : CollatedWriter).taskName = "B" ∧
    (run [.register "A", .register "B"]).sink = (run [.register "A"]).sink ∧
    (stateOf (run [.register "A", .register "B"]) "A" =
        stateOf (run [.register "A"]) "A" ∧
      peekBuffer (run [.register "A", .register "B"]) "A" =
        peekBuffer (run [.register "A"]) "A" ∧
      writtenOf (run [.register "A", .register "B"]) "A" =
        writtenOf (run [.register "A"]) "A") ∧
    isFront (run [.register "A", .register "B"])
        (⟨"A", 0, [], .Open, []⟩ : TaskEntry).name =
      isFront (run [.register "A"]) (⟨"A", 0, [], .Open, []⟩ : TaskEntry).name := by
  have h := c10_register_frame (run [.register "A"]) "B"
    (run [.register "A", .register "B"]) ⟨"B"⟩ (by decide)
  exact ⟨h.1, h.2.1, h.2.2.1 "A" (by decide), h.2.2.2 _ (by decide)⟩

/-- Claim C2, counterexample: at the reachable state where B has become
front while still holding a buffered chunk, a successful write by the
front task B is forwarded to the sink immediately, yet B's buffer is
not empty after (nor before) the call — refuting "the task's buffer
stays empty". -/
theorem c2_counterexample :
    isFront (run opsCorner) "B" = true ∧
    writeChunk (run opsCorner) "B" (stdoutChunk "y") =
      .ok (run (opsCorner ++ [.write "B" (stdoutChunk "y")])) ∧
    sinkChunks (run (opsCorner ++ [.write "B" (stdoutChunk "y")])) =
      sinkChunks (run opsCorner) ++ [stdoutChunk "y"] ∧
    peekBuffer (run (opsCorner ++ [.write "B" (stdoutChunk "y")])) "B" =
      [stdoutChunk "x"] ∧
    ¬ peekBuffer (run (opsCorner ++ [.write "B" (stdoutChunk "y")])) "B"
      = [] := by
  decide

/-- Claim C2 as amended: for every state and every successful
`write(handle, chunk)` — if the handle's task is the front task, the
chunk is forwarded to the sink immediately, in write order, and every
task's buffer is left unchanged (in particular the writing task's
buffer stays empty whenever it was empty); if the task is not front,
the chunk is appended to that task's own buffer, other buffers are
unchanged, and nothing is forwarded to the sink by that call. -/
theorem c2_front_forwards_nonfront_buffers (s : CollatorState)
    (n : String) (c : ITerminalChunk) (s₁ : CollatorState)
    (h : writeChunk s n c = .ok s₁) :
    (isFront s n = true →
      sinkChunks s₁ = sinkChunks s ++ [c] ∧
      (∀ m, peekBuffer s₁ m = peekBuffer s m)) ∧
    (isFront s n = false →
      s₁.sink = s.sink ∧
      peekBuffer s₁ n = peekBuffer s n ++ [c] ∧
      (∀ m, m ≠ n → peekBuffer s₁ m = peekBuffer s m)) := by
  obtain ⟨t, hf, hst, hcase⟩ := writeChunk_ok_elim h
  constructor
  · intro hfr
    rcases hcase with ⟨_, rfl⟩ | ⟨hff, _⟩
    swap
    · rw [hfr] at hff
      cases hff
    constructor
    · simp [sinkChunks]
    · exact peekBuffer_eq_of_updateTask rfl (fun v => rfl) (fun v => rfl)
  · intro hfr
    rcases hcase with ⟨hff, _⟩ | ⟨_, rfl⟩
    · rw [hfr] at hff
      cases hff
    refine ⟨rfl, ?_, ?_⟩
    · unfold peekBuffer findTask?
      dsimp only
      rw [find?_updateTask (f := fun u => { u with buffer := u.buffer ++ [c], written := u.written ++ [c] }) (fun v => rfl)]
      rw [show s.tasks.find? (fun u => u.name = n) = some t from hf]
      have htn : t.name = n := by simpa using List.find?_some hf
      simp [Option.map, htn]
    · intro m hm
      unfold peekBuffer findTask?
      dsimp only
      rw [find?_updateTask (f := fun u => { u with buffer := u.buffer ++ [c], written := u.written ++ [c] }) (fun v => rfl)]
      cases hfm : s.tasks.find? (fun u => u.name = m) with
      | none => rfl
      | some u =>
        have hun : u.name = m := by simpa using List.find?_some hfm
        simp [Option.map, hun, hm]

theorem c2_witness :
    sinkChunks (run [.register "A", .write "A" (stdoutChunk "1")]) =
      sinkChunks (run [.register "A"]) ++ [stdoutChunk "1"] ∧
    peekBuffer (run [.register "A", .write "A" (stdoutChunk "1")]) "A" =
      peekBuffer (run [.register "A"]) "A" := by
  have h := c2_front_forwards_nonfront_buffers (run [.register "A"]) "A"
    (stdoutChunk "1") (run [.register "A", .write "A" (stdoutChunk "1")])
    (by decide)
  exact ⟨(h.1 (by decide)).1, (h.1 (by decide)).2 "A"⟩

/-- Claim C4, counterexample: in the corner run, task B writes x then
y, but the sink receives B's chunks as y then x — the live-forwarded
chunk overtakes the still-buffered earlier chunk, refuting per-task
FIFO as stated. -/
theorem c4_counterexample :
    writtenOf (run opsCornerFull) "B" =
      [stdoutChunk "x", stdoutChunk "y"] ∧
    emissionsOf (run opsCornerFull) "B" =
      [stdoutChunk "y", stdoutChunk "x"] ∧
    ¬ (stdoutChunk "x") = (stdoutChunk "y") := by
  decide

/-- Claim C4 as amended: for every task and every operation sequence in
which no chunk is ever live-forwarded while the writing task's buffer
is non-empty (`cleanRun`), the sink emissions originating from a task,
followed by its still-buffered chunks, are exactly the chunks the task
wrote, in write order — so the emission subsequence preserves each
task's write order. -/
theorem c4_per_task_fifo (ops : List Op) (h : cleanRun ops = true) :
    ∀ t ∈ (run ops).tasks,
      emissionsOf (run ops) t.name ++ t.buffer = t.written :=
  fifo_foldl ops initialState inv_initial fifo_initial h

theorem c4_witness :
    emissionsOf (run opsScenarioB) "B" ++ ([] : List ITerminalChunk) =
      [stdoutChunk "2"] :=
  c4_per_task_fifo opsScenarioB (by decide)
    (⟨"B", 1, [], .Done, [stdoutChunk "2"]⟩ : TaskEntry) (by decide)

/-- Registrations and writes of spec Scenario D, before any close. -/
def opsD3 : List Op :=
  [.register "A", .register "B", .write "A" (stdoutChunk "1"),
   .write "B" (stdoutChunk "2")]

/-- The handoff prefix: A registered, written and closed, so B is front
with an empty buffer. -/
def opsHandoffPre : List Op :=
  [.register "A", .register "B", .write "A" (stdoutChunk "1"), .close "A"]

/-- Claim C3: a successful `close` marks the task `Closed` and runs the
cascade — afterwards the front task, if any, is `Open` (the cascade
stopped exactly there); every `Done` task's buffer is empty; each
previously registered task either ends up `Done` with its entire buffer
forwarded to the sink in original write order — and only `Closed`
entries are folded this way: any task other than the closed one that
becomes `Done` was not `Open` beforehand — or keeps its buffer and
emissions untouched, in which case its state is exactly as before
except that the closed task itself is now `Closed`; and closing a
non-front task flushes nothing: the sink and every buffer are
unchanged. -/
theorem c3_close_cascade (ops : List Op) (n : String) (s₁ : CollatorState)
    (h : closeWriter (run ops) n = .ok s₁) :
    (∀ u, front? s₁ = some u → u.state = .Open) ∧
    (∀ u ∈ s₁.tasks, u.state = .Done → u.buffer = []) ∧
    (∀ t ∈ (run ops).tasks, ∃ t' ∈ s₁.tasks,
      t'.name = t.name ∧
      ((t'.state = .Done ∧
        emissionsOf s₁ t.name = emissionsOf (run ops) t.name ++ t.buffer ∧
        t'.buffer = [] ∧ (t.name ≠ n → t.state ≠ .Open)) ∨
       (t'.state ≠ .Done ∧ t'.buffer = t.buffer ∧
        t'.state = (if t.name = n then .Closed else t.state) ∧
        emissionsOf s₁ t.name = emissionsOf (run ops) t.name))) ∧
    (isFront (run ops) n = false →
      s₁.sink = (run ops).sink ∧
      (∀ m, peekBuffer s₁ m = peekBuffer (run ops) m)) := by
  have hI := inv_run ops
  have hI' := inv_close hI h
  refine ⟨hI'.frontOpen, hI'.doneEmpty, ?_, ?_⟩
  · intro t ht
    obtain ⟨t', ht'm, h1, _, _, h4⟩ := close_effect hI h t ht
    exact ⟨t', ht'm, h1, h4⟩
  · intro hnf
    obtain ⟨hsink, htasks⟩ := close_nonfront hI h hnf
    refine ⟨hsink, ?_⟩
    rw [markClosed] at htasks
    exact peekBuffer_eq_of_updateTask htasks (fun v => rfl) (fun v => rfl)

theorem c3_witness :
    (run (opsD3 ++ [.close "B"])).sink = (run opsD3).sink ∧
    peekBuffer (run (opsD3 ++ [.close "B"])) "B" =
      peekBuffer (run opsD3) "B" := by
  have h := c3_close_cascade opsD3 "B" (run (opsD3 ++ [.close "B"]))
    (by decide)
  exact ⟨(h.2.2.2 (by decide)).1, (h.2.2.2 (by decide)).2 "B"⟩

lemma find?_notdone_updateTask {ts : List TaskEntry} {k : String}
    {f : TaskEntry → TaskEntry} (hfs : ∀ v, (f v).state = v.state) :
    (updateTask ts k f).find? (fun t => t.state ≠ TaskState.Done) =
      (ts.find? (fun t => t.state ≠ TaskState.Done)).map
        (fun t => if t.name = k then f t else t) := by
  unfold updateTask
  exact find?_map_pred
    (fun v => by by_cases hv : v.name = k <;> simp [hv, hfs]) ts

/-- Claim C6: once a task is front with an empty buffer, a write by it
is forwarded to the sink at once with no further buffering, and it
stays front under every operation other than its own close (so all its
subsequent writes are live); concretely, after registering A then B, A
writing and closing, a following write by B appears at the sink at
once, and B's later close emits nothing further. -/
theorem c6_front_handoff :
    (∀ (ops : List Op) (n : String) (c : ITerminalChunk),
      isFront (run ops) n = true → peekBuffer (run ops) n = [] →
      sinkChunks (run (ops ++ [Op.write n c])) =
        sinkChunks (run ops) ++ [c] ∧
      peekBuffer (run (ops ++ [Op.write n c])) n = []) ∧
    (∀ (ops : List Op) (n : String) (op : Op),
      isFront (run ops) n = true → op ≠ Op.close n →
      isFront (run (ops ++ [op])) n = true) ∧
    (sinkChunks (run (opsHandoffPre ++ [.write "B" (stdoutChunk "2")])) =
       [stdoutChunk "1", stdoutChunk "2"] ∧
     sinkChunks (run (opsHandoffPre ++ [.write "B" (stdoutChunk "2"),
       .close "B"])) = [stdoutChunk "1", stdoutChunk "2"]) := by
  refine ⟨?_, ?_, by decide⟩
  · intro ops n c hfr hbe
    have hI := inv_run ops
    obtain ⟨u, hu, hun⟩ := isFront_some hfr
    have huopen : u.state = .Open := hI.frontOpen u hu
    have humem : u ∈ (run ops).tasks := List.mem_of_find?_eq_some hu
    have hfind : findTask? (run ops) n = some u := by
      have hq := find?_of_mem_nodup hI.namesNodup humem
      rw [hun] at hq
      exact hq
    have hw := writeChunk_front_eq c hfind huopen hfr
    have hrun : run (ops ++ [Op.write n c]) =
        { run ops with
          sink := (run ops).sink ++ [⟨n, u.registrationIndex, c⟩],
          tasks := updateTask (run ops).tasks n
            (fun v => { v with written := v.written ++ [c] }) } := by
      rw [run_snoc]
      dsimp only [step]
      rw [hw]
    constructor
    · rw [hrun]
      simp [sinkChunks]
    · have hbe' : u.buffer = [] := by
        unfold peekBuffer at hbe
        rw [hfind] at hbe
        exact hbe
      rw [hrun]
      unfold peekBuffer findTask?
      dsimp only
      rw [find?_updateTask
          (f := fun v => { v with written := v.written ++ [c] })
          (fun v => rfl),
        show (run ops).tasks.find? (fun w => w.name = n) = some u from hfind]
      simp only [Option.map]
      by_cases hc' : u.name = n <;> simp [hc', hbe']
  · intro ops n op hfr hne
    have hI := inv_run ops
    obtain ⟨u, hu, hun⟩ := isFront_some hfr
    have huopen : u.state = .Open := hI.frontOpen u hu
    have humem : u ∈ (run ops).tasks := List.mem_of_find?_eq_some hu
    rw [run_snoc]
    cases op with
    | register k =>
      dsimp only [step]
      cases hr : registerTask (run ops) k with
      | error e => exact hfr
      | ok p =>
        obtain ⟨hfresh, hs, _⟩ :=
          registerTask_ok_elim (r := p.1) (w := p.2) hr
        dsimp only
        rw [hs]
        unfold isFront front?
        dsimp only
        rw [List.find?_append,
          show (run ops).tasks.find? (fun t => t.state ≠ TaskState.Done) =
            some u from hu]
        simp [Option.or, hun]
    | write k c =>
      dsimp only [step]
      cases hw : writeChunk (run ops) k c with
      | error e => exact hfr
      | ok s₂ =>
        obtain ⟨t, hf, hst, hcase⟩ := writeChunk_ok_elim hw
        have main : ∀ (f : TaskEntry → TaskEntry),
            (∀ v, (f v).state = v.state) → (∀ v, (f v).name = v.name) →
            (match (updateTask (run ops).tasks k f).find?
                (fun t => t.state ≠ TaskState.Done) with
             | some t => decide (t.name = n)
             | none => false) = true := by
          intro f hfs hfn
          rw [find?_notdone_updateTask hfs,
            show (run ops).tasks.find?
              (fun t => t.state ≠ TaskState.Done) = some u from hu]
          simp only [Option.map]
          have hin : (if u.name = k then f u else u).name = u.name := by
            by_cases hv : u.name = k <;> simp [hv, hfn]
          rw [hin]
          simp [hun]
        rcases hcase with ⟨_, rfl⟩ | ⟨_, rfl⟩ <;>
          · unfold isFront front?
            dsimp only
            exact main _ (fun v => rfl) (fun v => rfl)
    | close k =>
      have hkn : ¬ k = n := fun he => hne (by rw [he])
      dsimp only [step]
      cases hcl : closeWriter (run ops) k with
      | error e => exact hfr
      | ok s₂ =>
        have hI2 := inv_close hI hcl
        have hunk : u.name ≠ k := by
          rw [hun]
          exact fun he => hkn he.symm
        obtain ⟨u', hu'm, h1, h2, _, h4⟩ := close_effect hI hcl u humem
        rcases h4 with ⟨_, _, _, himp⟩ | ⟨_, _, hstate, _⟩
        · exact absurd huopen (himp hunk)
        · have hu'open : u'.state = .Open := by
            rw [hstate, if_neg hunk, huopen]
          have hfr2 : front? s₂ = some u' := by
            rw [front?_min hI2]
            refine ⟨hu'm, by simp [hu'open], ?_⟩
            intro v hv hvnd
            obtain ⟨w, hw, hvw_n, hvw_i, hvw_d⟩ :=
              close_entry_of_mem hI hcl v hv
            have hwnd : w.state ≠ .Done := fun hwd => hvnd (hvw_d hwd)
            have hmin := (front?_min_forward hI hu).2.2 w hw hwnd
            rw [h2, hvw_i]
            exact hmin
          unfold isFront
          rw [hfr2]
          simp [h1, hun]

theorem c6_witness :
    (sinkChunks (run (opsHandoffPre ++ [Op.write "B" (stdoutChunk "2")])) =
       sinkChunks (run opsHandoffPre) ++ [stdoutChunk "2"] ∧
     peekBuffer (run (opsHandoffPre ++ [Op.write "B" (stdoutChunk "2")]))
       "B" = []) ∧
    isFront (run (opsHandoffPre ++ [Op.register "C"])) "B" = true :=
  ⟨c6_front_handoff.1 opsHandoffPre "B" (stdoutChunk "2") (by decide)
     (by decide),
   c6_front_handoff.2.1 opsHandoffPre "B" (Op.register "C") (by decide)
     (by decide)⟩

end StreamCollator
